import Mathlib

set_option maxHeartbeats 1000000
set_option maxRecDepth 4000

/-
Shallow embedding of the id-reconciliation and index-synchronization layer of
fiftyone-brain: `fiftyone/brain/internal/core/utils.py` (get_ids, filter_ids,
_get_patch_ids, _apply_ref_sample_ids, _flatten_list_ids, _parse_ids, add_ids,
remove_ids, _find_ids) and `fiftyone/brain/internal/core/pinecone.py`
(remove_from_index, _sort_by_similarity, add_to_index).

Python ids are opaque strings; numpy id arrays are `List String`.  A Python
`None` label placeholder is modelled by the empty string `""` (never inspected
by the code under study).  Raised exceptions are modelled by the `Outcome.fail`
constructor; `logger.warning` calls are modelled by returning the list of
emitted `Warning` records (the count, and the example id when the format
string interpolates one).
-/

namespace FiftyoneBrain

/-- One `logger.warning` record: which message was used, the count
interpolated into it, and the example id interpolated into it when the
message format has an `eg '%s'` slot (otherwise `none`). -/
structure Warning where
  kind : String
  count : Nat
  exampleId : Option String
deriving DecidableEq, Repr

/-- Python control flow: a raised exception or a returned value. -/
inductive Outcome (ε α : Type) where
  | fail (e : ε)
  | ok (v : α)
deriving DecidableEq, Repr

/-- The dict comprehension `{_id: _i for _i, _id in enumerate(ids)}` maps each
id to its position, later positions overwriting earlier ones; so lookup
returns the LAST index at which `x` occurs, or `none`. -/
def lastIdx (l : List String) (x : String) : Option Nat :=
  match l with
  | [] => none
  | a :: rest =>
    match lastIdx rest x with
    | some j => some (j + 1)
    | none => if a = x then some 0 else none

/-- Numpy fancy-index assignment `arr[jj] = vals` applied in order: later
writes to the same position win. Bounds are checked separately by callers. -/
def scatter {α : Type} (a : List α) (ws : List (Nat × α)) : List α :=
  ws.foldl (fun acc w => acc.set w.1 w.2) a

/-- The value written to position `q` by the last write in `ws` targeting it. -/
def lastWrite {α : Type} : List (Nat × α) → Nat → Option α
  | [], _ => none
  | w :: rest, q =>
    match lastWrite rest q with
    | some v => some v
    | none => if w.1 = q then some w.2 else none

/-- Numpy fancy-index gather `l[inds]`; `none` models the `IndexError` when an
index is out of bounds. -/
def gather {α : Type} (l : List α) (inds : List Nat) : Option (List α) :=
  match inds with
  | [] => some []
  | i :: rest =>
    match l.get? i, gather l rest with
    | some v, some vs => some (v :: vs)
    | _, _ => none

/-- The walk over incoming ids in `add_ids` (utils.py lines 286-296): for each
incoming id, absent ids are assigned the next fresh position (counter `c`,
started by the caller at `len(index_ids)`), present ids are assigned their
stored position when `overwrite` and skipped otherwise.  `i` is the position
in the incoming batch. -/
def walkAux (indexIds : List String) (overwrite : Bool) :
    List String → Nat → Nat → List (Nat × Nat)
  | [], _, _ => []
  | x :: rest, i, c =>
    match lastIdx indexIds x with
    | none => (i, c) :: walkAux indexIds overwrite rest (i + 1) (c + 1)
    | some j =>
      if overwrite then (i, j) :: walkAux indexIds overwrite rest (i + 1) c
      else walkAux indexIds overwrite rest (i + 1) c

/-- The `(ii, jj)` write set computed by `add_ids` before any
`allow_existing` filtering. -/
def buildWrites (indexIds : List String) (overwrite : Bool) (ids : List String) :
    List (Nat × Nat) :=
  walkAux indexIds overwrite ids 0 indexIds.length

inductive AddErr where
  | valueError (count : Nat) (exampleId : String)
  | indexError
deriving DecidableEq, Repr

structure AddOut where
  indexSampleIds : List String
  indexLabelIds : List String
  ii : List Nat
  jj : List Nat
  warnings : List Warning
deriving DecidableEq, Repr

/-- `add_ids` from the point the write set `(ii, jj)` is fixed (utils.py lines
324-349): resize by `m = jj[-1] - n + 1` when positive, reset dtype-carrying
arrays when the index was empty, then scatter-write the gathered incoming ids.
Out-of-bounds gathers or scatters are numpy `IndexError`s. -/
def addIdsFinish (sampleIds labelIds indexSampleIds indexLabelIds : List String)
    (patchesField : Bool) (writes : List (Nat × Nat)) (warns : List Warning) :
    Outcome AddErr AddOut :=
  let ii := writes.map Prod.fst
  let jj := writes.map Prod.snd
  if writes.isEmpty then
    .ok ⟨indexSampleIds, indexLabelIds, ii, jj, warns⟩
  else
    let n := indexSampleIds.length
    let m : Int := (jj.getLastD 0 : Int) - (n : Int) + 1
    let ext := m.toNat
    let s0 := if n = 0 then ([] : List String) else indexSampleIds
    let l0 := if n = 0 ∧ patchesField then ([] : List String) else indexLabelIds
    let s1 := s0 ++ List.replicate ext ""
    let l1 := if patchesField then l0 ++ List.replicate ext "" else l0
    match gather sampleIds ii with
    | none => .fail .indexError
    | some svals =>
      if jj.all (fun j => decide (j < s1.length)) then
        let s2 := scatter s1 (jj.zip svals)
        if patchesField then
          match gather labelIds ii with
          | none => .fail .indexError
          | some lvals =>
            if jj.all (fun j => decide (j < l1.length)) then
              .ok ⟨s2, scatter l1 (jj.zip lvals), ii, jj, warns⟩
            else .fail .indexError
        else .ok ⟨s2, l1, ii, jj, warns⟩
      else .fail .indexError

/-- `add_ids` (utils.py lines 266-349).  In patch mode the label ids drive the
position map; `n` is always the length of the stored sample-id array.  With
`allow_existing=False`, entries of the write set at already-occupied positions
(`jj < n`) either trigger a `ValueError` naming `ids[ii[0]]`, or, when
`warn_existing`, are warned about and deleted from the write set. -/
def addIds (sampleIds labelIds indexSampleIds indexLabelIds : List String)
    (patchesField overwrite allowExisting warnExisting : Bool) :
    Outcome AddErr AddOut :=
  let ids := if patchesField then labelIds else sampleIds
  let indexIds := if patchesField then indexLabelIds else indexSampleIds
  let writes := buildWrites indexIds overwrite ids
  let n := indexSampleIds.length
  if allowExisting then
    addIdsFinish sampleIds labelIds indexSampleIds indexLabelIds patchesField writes []
  else
    let existing := writes.filter (fun w => decide (w.2 < n))
    if existing.length > 0 then
      let ex := ids.getD (writes.headD (0, 0)).1 ""
      if warnExisting then
        addIdsFinish sampleIds labelIds indexSampleIds indexLabelIds patchesField
          (writes.filter (fun w => decide (¬ w.2 < n)))
          [⟨"already_in_index", existing.length, some ex⟩]
      else .fail (.valueError existing.length ex)
    else
      addIdsFinish sampleIds labelIds indexSampleIds indexLabelIds patchesField writes []

inductive RemErr where
  | valueError (count : Nat) (exampleId : String)
  | indexError
deriving DecidableEq, Repr

/-- The resolution loop of `_find_ids` (utils.py lines 417-427): found ids
contribute their stored position; missing ids are recorded ONLY when
`allow_missing` is false. Returns `(found_inds, missing_ids)`. -/
def findIdsAux (indexIds : List String) (allowMissing : Bool) :
    List String → List Nat × List String
  | [] => ([], [])
  | x :: rest =>
    let (f, miss) := findIdsAux indexIds allowMissing rest
    match lastIdx indexIds x with
    | some j => (j :: f, miss)
    | none => if allowMissing then (f, miss) else (f, x :: miss)

/-- `_find_ids` (utils.py lines 417-447): raises naming the count and first
missing id when missing ids are found and disallowed; warns (count plus first
missing id) when they are found, allowed and `warn_missing`. -/
def findIds (ids indexIds : List String) (allowMissing warnMissing : Bool)
    (ftype : String) : Outcome RemErr (List Nat × List Warning) :=
  let (found, miss) := findIdsAux indexIds allowMissing ids
  let numMissing := miss.length
  if numMissing > 0 then
    if ¬ allowMissing then .fail (.valueError numMissing (miss.headD ""))
    else if warnMissing then
      .ok (found, [⟨"missing_" ++ ftype, numMissing, some (miss.headD "")⟩])
    else .ok (found, [])
  else .ok (found, [])

/-- `np.delete(arr, inds)` kept elements: drop every position listed in
`inds`, preserving order; `k` is the absolute position of the list head. -/
def removeAtInds {α : Type} : Nat → List α → List Nat → List α
  | _, [], _ => []
  | k, x :: rest, inds =>
    if inds.contains k then removeAtInds (k + 1) rest inds
    else x :: removeAtInds (k + 1) rest inds

/-- `np.delete(arr, inds)` with its bounds check: `none` models the
`IndexError` raised when an index is out of range. -/
def npDelete {α : Type} (arr : List α) (inds : List Nat) : Option (List α) :=
  if inds.all (fun i => decide (i < arr.length)) then some (removeAtInds 0 arr inds)
  else none

/-- `remove_ids` (utils.py lines 374-414): collect positions to remove from
the sample-id targets and the label-id targets, then compact both arrays (the
label array only in patch mode) with one `np.delete` each. -/
def removeIds (sampleIds? labelIds? : Option (List String))
    (indexSampleIds indexLabelIds : List String)
    (patchesField allowMissing warnMissing : Bool) :
    Outcome RemErr (List String × List String × List Nat × List Warning) :=
  match (match sampleIds? with
         | some s => findIds s indexSampleIds allowMissing warnMissing "sample"
         | none => .ok ([], [])) with
  | .fail e => .fail e
  | .ok (f1, w1) =>
    match (match labelIds? with
           | some l => findIds l indexLabelIds allowMissing warnMissing "label"
           | none => .ok ([], [])) with
    | .fail e => .fail e
    | .ok (f2, w2) =>
      let rmInds := f1 ++ f2
      if rmInds.isEmpty then .ok (indexSampleIds, indexLabelIds, rmInds, w1 ++ w2)
      else
        match npDelete indexSampleIds rmInds with
        | none => .fail .indexError
        | some s' =>
          if patchesField then
            match npDelete indexLabelIds rmInds with
            | none => .fail .indexError
            | some l' => .ok (s', l', rmInds, w1 ++ w2)
          else .ok (s', indexLabelIds, rmInds, w1 ++ w2)

inductive ParseErr where
  | indexMissing (count : Nat) (ftype : String)
  | collectionMissing (count : Nat) (ftype : String)
deriving DecidableEq, Repr

structure ParseOut where
  keepInds : Option (List Nat)
  goodInds : Option (List Bool)
  badIds : Option (List String)
  warnings : List Warning
deriving DecidableEq, Repr

/-- The loop of `_parse_ids` (utils.py lines 186-192): for each query id at
position `i` (absolute position of the head), found ids append their index
position to `keep_inds`; absent ids record their position and value.
Returns `(keep_inds, bad_inds, bad_ids)`. -/
def parseWalkAux (indexIds : List String) :
    List String → Nat → List Nat × List Nat × List String
  | [], _ => ([], [], [])
  | x :: rest, i =>
    let (k, bi, bid) := parseWalkAux indexIds rest (i + 1)
    match lastIdx indexIds x with
    | some j => (j :: k, bi, bid)
    | none => (k, i :: bi, x :: bid)

/-- `_parse_ids` (utils.py lines 177-236).  Fast path on elementwise-equal
arrays; otherwise two independent missing counts each raise when disallowed
or warn (count only, no example id) when requested; `good_inds` is built only
when query-side ids are missing from the index, as an all-true mask scattered
to false at the bad positions. -/
def parseIds (ids indexIds : List String) (ftype : String)
    (allowMissing warnMissing : Bool) : Outcome ParseErr ParseOut :=
  if ids = indexIds then .ok ⟨none, none, none, []⟩
  else
    let (keepInds, badInds, badIds) := parseWalkAux indexIds ids 0
    let nmi : Int := (indexIds.length : Int) - (keepInds.length : Int)
    if 0 < nmi ∧ allowMissing = false then .fail (.indexMissing nmi.toNat ftype)
    else
      let w1 := if 0 < nmi ∧ warnMissing then
        [⟨"index_missing_" ++ ftype, nmi.toNat, none⟩] else []
      let nmc := badIds.length
      if 0 < nmc ∧ allowMissing = false then .fail (.collectionMissing nmc ftype)
      else
        let w2 := if 0 < nmc ∧ warnMissing then
          [⟨"collection_missing_" ++ ftype, nmc, none⟩] else []
        if 0 < nmc then
          let good := badInds.foldl (fun acc i => acc.set i false)
            (List.replicate ids.length true)
          .ok ⟨some keepInds, some good, some badIds, w1 ++ w2⟩
        else .ok ⟨some keepInds, none, none, w1 ++ w2⟩

/-- Numpy boolean-mask indexing `l[mask]`. -/
def maskFilter {α : Type} (l : List α) (mask : List Bool) : List α :=
  ((l.zip mask).filter (fun p => p.2)).map Prod.fst

/-- The collection collaborator, restricted to what the code under study
reads from it.  `ids` models `samples.values("id")`, `sampleIdVals` models
`samples.values("sample_id")` (used when the view is a patches view), and
`labelLists` the per-sample lists of label ids returned by
`samples.values(label_id_path)`; the patches field is modelled as a
label-list field (the flatten path of `_get_patch_ids`). -/
structure Collection where
  ids : List String
  sampleIdVals : List String
  isPatches : Bool
  labelLists : List (List String)
deriving DecidableEq, Repr

/-- `_apply_ref_sample_ids` (utils.py lines 149-157): the per-sample label
lists are re-indexed onto the reference sample ids; entries never assigned
keep the `None` placeholder, modelled by `[]` (both are falsy downstream). -/
def applyRefSampleIds (sampleIds : List String) (labelLists : List (List String))
    (refSampleIds : List String) : List String × List (List String) :=
  let init := List.replicate refSampleIds.length ([] : List String)
  let refLabel := (sampleIds.zip labelLists).foldl
    (fun acc p =>
      match lastIdx refSampleIds p.1 with
      | some idx => acc.set idx p.2
      | none => acc) init
  (refSampleIds, refLabel)

/-- `_flatten_list_ids` (utils.py lines 160-174): each sample id is repeated
once per label id, preserving per-sample order; a sample with an empty (falsy)
label list is dropped, or, with `handle_missing == "image"` (`addMissing`),
contributes one `(sample_id, None)` pair, `None` modelled as `""`. -/
def flattenListIds (pairs : List (String × List String)) (addMissing : Bool) :
    List String × List String :=
  match pairs with
  | [] => ([], [])
  | (sid, lids) :: rest =>
    let (s, l) := flattenListIds rest addMissing
    if lids.isEmpty then
      if addMissing then (sid :: s, "" :: l) else (s, l)
    else (lids.map (fun _ => sid) ++ s, lids ++ l)

/-- `_get_patch_ids` (utils.py lines 121-146) for a label-list patches field:
read the parallel sample-id/label-list values, optionally re-index them onto
reference sample ids, then flatten. -/
def getPatchIds (c : Collection) (addMissing : Bool)
    (refSampleIds? : Option (List String)) : List String × List String :=
  let vals := if c.isPatches then c.sampleIdVals else c.ids
  let (s, ll) := match refSampleIds? with
    | some r => applyRefSampleIds vals c.labelLists r
    | none => (vals, c.labelLists)
  flattenListIds (s.zip ll) addMissing

inductive GetErr where
  | integrity (numData numIds : Nat)
deriving DecidableEq, Repr

/-- `get_ids` (utils.py lines 27-66): resolve ordered ids at sample or patch
granularity; when an external data array is supplied, a cardinality mismatch
with the resolved ids raises a `ValueError` naming both counts. -/
def getIds {E : Type} (c : Collection) (patchesField : Bool)
    (data? : Option (List E)) (addMissing : Bool)
    (refSampleIds? : Option (List String)) :
    Outcome GetErr (List String × Option (List String)) :=
  if patchesField = false then
    let sampleIds := match refSampleIds? with
      | some r => r
      | none => c.ids
    match data? with
    | some d =>
      if sampleIds.length ≠ d.length then .fail (.integrity d.length sampleIds.length)
      else .ok (sampleIds, none)
    | none => .ok (sampleIds, none)
  else
    let (s, l) := getPatchIds c addMissing refSampleIds?
    match data? with
    | some d =>
      if s.length ≠ d.length then .fail (.integrity d.length s.length)
      else .ok (s, some l)
    | none => .ok (s, some l)

structure FilterOut where
  sampleIds : List String
  labelIds : Option (List String)
  keepInds : Option (List Nat)
  goodInds : Option (List Bool)
deriving DecidableEq, Repr

/-- `filter_ids` (utils.py lines 69-118): resolve the view's ids; when the
relevant index-side array is `None` return them as-is with no reconciliation;
otherwise reconcile with `_parse_ids` and, when bad ids exist, keep only the
rows the good mask selects. -/
def filterIds (c : Collection) (indexSampleIds? indexLabelIds? : Option (List String))
    (patchesField allowMissing warnMissing : Bool) :
    Outcome ParseErr (FilterOut × List Warning) :=
  if patchesField = false then
    let sampleIds := if c.isPatches then c.sampleIdVals else c.ids
    match indexSampleIds? with
    | none => .ok (⟨sampleIds, none, none, none⟩, [])
    | some indexSampleIds =>
      match parseIds sampleIds indexSampleIds "samples" allowMissing warnMissing with
      | .fail e => .fail e
      | .ok out =>
        let sampleIds' := match out.badIds, out.goodInds with
          | some _, some good => maskFilter sampleIds good
          | _, _ => sampleIds
        .ok (⟨sampleIds', none, out.keepInds, out.goodInds⟩, out.warnings)
  else
    let (sampleIds, labelIds) := getPatchIds c false none
    match indexLabelIds? with
    | none => .ok (⟨sampleIds, some labelIds, none, none⟩, [])
    | some indexLabelIds =>
      match parseIds labelIds indexLabelIds "labels" allowMissing warnMissing with
      | .fail e => .fail e
      | .ok out =>
        match out.badIds, out.goodInds with
        | some _, some good =>
          .ok (⟨maskFilter sampleIds good, some (maskFilter labelIds good),
               out.keepInds, out.goodInds⟩, out.warnings)
        | _, _ =>
          .ok (⟨sampleIds, some labelIds, out.keepInds, out.goodInds⟩, out.warnings)

/-- The id state held by `PineconeSimilarityResults`. -/
structure PineconeState where
  sampleIds? : Option (List String)
  labelIds? : Option (List String)
deriving DecidableEq, Repr

/-- `remove_from_index` (pinecone.py lines 185-208): when label ids are
stored, ONLY the label array is filtered (the sample array is left untouched)
and the label ids are deleted from the backend; otherwise the sample array is
filtered.  Returns the new state and the ids sent to `index.delete`. -/
def removeFromIndex (st : PineconeState) (sampleIds labelIds : List String) :
    PineconeState × List String :=
  match st.labelIds? with
  | some lids =>
    (⟨st.sampleIds?, some (lids.filter (fun l => decide (l ∉ labelIds)))⟩, labelIds)
  | none =>
    match st.sampleIds? with
    | some sids =>
      (⟨some (sids.filter (fun s => decide (s ∉ sampleIds))), st.labelIds?⟩, sampleIds)
    | none => (st, [])

inductive SimQuery where
  | vec (v : List Int)
  | byId (qid : String)
deriving DecidableEq, Repr

inductive SimErr where
  | reverseUnsupported
  | kRequired
  | kTooLarge
  | queryRequired
  | aggregationUnsupported
  | fetchFailed
deriving DecidableEq, Repr

/-- `_sort_by_similarity` (pinecone.py lines 210-275).  `fetchVec` models
`index.fetch` (resolving a stored id to its vector), `indexQuery` models
`index.query(vector, top_k, filter)` returning the backend's ranked neighbor
ids.  After issuing the backend query the code DISCARDS the response and
returns a hardcoded id list — a single string, because the two Python string
literals on line 269 lack a separating comma and concatenate — and, when
distances are requested, an empty distance list. -/
def sortBySimilarity (query : Option SimQuery) (k : Option Nat) (reverse : Bool)
    (aggregation : Option String) (returnDists : Bool)
    (currentSampleIds : List String) (currentLabelIds? : Option (List String))
    (fetchVec : String → Option (List Int))
    (indexQuery : List Int → Nat → List String → List String) :
    Outcome SimErr (List String × Option (List Int)) :=
  if reverse then .fail .reverseUnsupported
  else
    match k with
    | none => .fail .kRequired
    | some k =>
      if k > 10000 then .fail .kTooLarge
      else
        match query with
        | none => .fail .queryRequired
        | some q =>
          if aggregation.isSome then .fail .aggregationUnsupported
          else
            match (match q with
                   | .vec v => some v
                   | .byId qid => fetchVec qid) with
            | none => .fail .fetchFailed
            | some qe =>
              let _response := match currentLabelIds? with
                | some lids => indexQuery qe k lids
                | none => indexQuery qe (min k 10000) currentSampleIds
              let ids := ["63ed9a7ba4c597b4abcc671163ed9a7ba4c597b4abcc6717"]
              if returnDists then .ok (ids, some ([] : List Int))
              else .ok (ids, none)

/-- The pagination loop of `add_to_index` (pinecone.py lines 298-310): the
batches `index_vectors[page*i : min(page*(i+1), num)]` handed to successive
`index.upsert` calls. -/
def addToIndexBatches {α : Type} (indexVectors : List α) (upsertPagination : Nat) :
    List (List α) :=
  let numVectors := indexVectors.length
  let numSteps := (numVectors + upsertPagination - 1) / upsertPagination
  (List.range numSteps).map (fun i =>
    let minInd := upsertPagination * i
    let maxInd := min (upsertPagination * (i + 1)) numVectors
    ((indexVectors.drop minInd).take (maxInd - minInd)))

/-- An incoming id absent from the position map gets a fresh position. -/
def isNew (indexIds : List String) (x : String) : Bool :=
  (lastIdx indexIds x).isNone

/-- Number of fresh positions consumed by the first `k` incoming ids. -/
def newCountBefore (indexIds ids : List String) (k : Nat) : Nat :=
  ((ids.take k).filter (isNew indexIds)).length

/-- Total number of fresh positions consumed by an incoming batch. -/
def newCount (indexIds ids : List String) : Nat :=
  (ids.filter (isNew indexIds)).length

/-- The incoming id at step `k` (defaulting to `""` out of range). -/
def idAt (ids : List String) (k : Nat) : String :=
  (ids.get? k).getD ""

/-- The position the overwrite walk assigns to incoming step `k`, with fresh
positions counted from `c0`. -/
def writePos (indexIds : List String) (c0 : Nat) (ids : List String) (k : Nat) : Nat :=
  match lastIdx indexIds (idAt ids k) with
  | some j => j
  | none => c0 + newCountBefore indexIds ids k

/-- The ordered ids `get_ids` resolves before its cardinality check (the same
resolution the function performs, named so theorems can refer to it). -/
def resolvedIds (c : Collection) (patchesField : Bool) (addMissing : Bool)
    (refSampleIds? : Option (List String)) : List String × Option (List String) :=
  if patchesField = false then
    (match refSampleIds? with
     | some r => r
     | none => c.ids, none)
  else
    ((getPatchIds c addMissing refSampleIds?).1,
      some (getPatchIds c addMissing refSampleIds?).2)

/-- The condition under which the single-resize arithmetic `m = jj[-1] - n + 1`
of `add_ids` allocates all fresh positions: either no id is new, or the LAST
incoming id is itself new (so `jj[-1]` is the largest fresh position). -/
def addFits (indexIds ids : List String) : Prop :=
  ids = [] ∨ newCount indexIds ids = 0 ∨ isNew indexIds (ids.getLastD "") = true

instance (indexIds ids : List String) : Decidable (addFits indexIds ids) := by
  unfold addFits
  infer_instance

/-! Basic lemmas about the numpy primitives of the embedding. -/

theorem getq_set {α : Type} (l : List α) (i j : Nat) (v : α) :
    (l.set i v).get? j = if i = j ∧ j < l.length then some v else l.get? j := by
  induction l generalizing i j with
  | nil => simp [List.set]
  | cons a rest ih =>
    cases i with
    | zero =>
      cases j with
      | zero => simp
      | succ j => simp
    | succ i =>
      cases j with
      | zero => simp
      | succ j =>
        simp only [List.set, List.get?, ih i j, List.length_cons]
        by_cases h : i = j ∧ j < rest.length
        · rw [if_pos h, if_pos ⟨by omega, by omega⟩]
        · rw [if_neg h, if_neg (by omega)]

theorem set_getq_self {α : Type} {l : List α} {j : Nat} {v : α}
    (h : l.get? j = some v) : l.set j v = l := by
  induction l generalizing j with
  | nil => exact absurd h (by simp)
  | cons a rest ih =>
    cases j with
    | zero =>
      have : a = v := by injection h
      simp [this]
    | succ j =>
      have : rest.get? j = some v := h
      simp [List.set, ih this]

theorem getq_append_left {α : Type} {l₁ : List α} (l₂ : List α) {j : Nat}
    (h : j < l₁.length) : (l₁ ++ l₂).get? j = l₁.get? j := by
  rw [List.get?_append h]

theorem set_append_right {α : Type} (l₁ l₂ : List α) (t : Nat) (v : α) :
    (l₁ ++ l₂).set (l₁.length + t) v = l₁ ++ l₂.set t v := by
  induction l₁ with
  | nil => simp
  | cons a rest ih => simp [List.set, Nat.succ_add, ih]

theorem lastIdx_getq {l : List String} {x : String} {j : Nat}
    (h : lastIdx l x = some j) : l.get? j = some x := by
  induction l generalizing j with
  | nil => simp [lastIdx] at h
  | cons a rest ih =>
    rw [lastIdx] at h
    cases hr : lastIdx rest x with
    | some j' =>
      rw [hr] at h
      injection h with h
      subst h
      simpa using ih hr
    | none =>
      rw [hr] at h
      by_cases ha : a = x
      · rw [if_pos ha] at h
        injection h with h
        subst h
        simpa using ha
      · rw [if_neg ha] at h
        cases h

theorem lastIdx_lt_length {l : List String} {x : String} {j : Nat}
    (h : lastIdx l x = some j) : j < l.length :=
  List.get?_eq_some.mp (lastIdx_getq h) |>.1

theorem mem_of_lastIdx_some {l : List String} {x : String} {j : Nat}
    (h : lastIdx l x = some j) : x ∈ l :=
  List.get?_mem (lastIdx_getq h)

theorem lastIdx_none_iff {l : List String} {x : String} :
    lastIdx l x = none ↔ x ∉ l := by
  induction l with
  | nil => simp [lastIdx]
  | cons a rest ih =>
    rw [lastIdx]
    cases hr : lastIdx rest x with
    | some j =>
      constructor
      · intro h; cases h
      · intro h
        have : x ∈ rest := mem_of_lastIdx_some hr
        exact absurd (List.mem_cons_of_mem a this) h
    | none =>
      have hxr : x ∉ rest := ih.mp hr
      by_cases ha : a = x
      · rw [if_pos ha]
        constructor
        · intro h; cases h
        · intro h; exact absurd (ha ▸ List.mem_cons_self a rest) h
      · rw [if_neg ha]
        constructor
        · intro _ h
          rcases List.mem_cons.mp h with h | h
          · exact ha h.symm
          · exact hxr h
        · intro _; rfl

theorem lastIdx_isLast {l : List String} {x : String} {j : Nat}
    (h : lastIdx l x = some j) : ∀ q, j < q → l.get? q ≠ some x := by
  induction l generalizing j with
  | nil => simp [lastIdx] at h
  | cons a rest ih =>
    rw [lastIdx] at h
    intro q hq
    cases hr : lastIdx rest x with
    | some j' =>
      rw [hr] at h
      injection h with h
      subst h
      cases q with
      | zero => omega
      | succ q =>
        simpa using ih hr q (by omega)
    | none =>
      rw [hr] at h
      by_cases ha : a = x
      · rw [if_pos ha] at h
        injection h with h
        subst h
        cases q with
        | zero => omega
        | succ q =>
          simp only [List.get?]
          intro hc
          exact (lastIdx_none_iff.mp hr) (List.get?_mem hc)
      · rw [if_neg ha] at h
        cases h

theorem lastIdx_inj {l : List String} {u v : String} {j : Nat}
    (hu : lastIdx l u = some j) (hv : lastIdx l v = some j) : u = v := by
  have h1 := lastIdx_getq hu
  have h2 := lastIdx_getq hv
  rw [h1] at h2
  injection h2

theorem lastIdx_append (l₁ l₂ : List String) (x : String) :
    lastIdx (l₁ ++ l₂) x =
      match lastIdx l₂ x with
      | some j => some (l₁.length + j)
      | none => lastIdx l₁ x := by
  induction l₁ with
  | nil => cases h : lastIdx l₂ x <;> simp [lastIdx, h]
  | cons a rest ih =>
    rw [List.cons_append, lastIdx, ih, lastIdx]
    cases h : lastIdx l₂ x with
    | some j =>
      simp only [List.length_cons]
      cases hr : lastIdx rest x <;> simp [Nat.succ_add]
    | none => rfl

theorem lastIdx_of_mem {l : List String} {x : String} (h : x ∈ l) :
    ∃ j, lastIdx l x = some j := by
  cases hl : lastIdx l x with
  | none => exact absurd h (lastIdx_none_iff.mp hl)
  | some j => exact ⟨j, rfl⟩

theorem scatter_length {α : Type} (a : List α) (ws : List (Nat × α)) :
    (scatter a ws).length = a.length := by
  induction ws generalizing a with
  | nil => rfl
  | cons w rest ih => simp [scatter] at ih ⊢; rw [ih, List.length_set]

theorem scatter_getq {α : Type} (a : List α) (ws : List (Nat × α)) (q : Nat)
    (hq : q < a.length) :
    (scatter a ws).get? q =
      match lastWrite ws q with
      | some v => some v
      | none => a.get? q := by
  induction ws generalizing a with
  | nil => rfl
  | cons w rest ih =>
    have hstep : scatter a (w :: rest) = scatter (a.set w.1 w.2) rest := rfl
    rw [hstep, ih (a.set w.1 w.2) (by simpa using hq), lastWrite]
    cases hlw : lastWrite rest q with
    | some v => rfl
    | none =>
      rw [getq_set]
      by_cases he : w.1 = q
      · rw [if_pos ⟨he, he ▸ hq⟩, if_pos he]
      · rw [if_neg (by intro hc; exact he hc.1), if_neg he]

theorem scatter_id {α : Type} (a : List α) (ws : List (Nat × α))
    (h : ∀ w ∈ ws, a.get? w.1 = some w.2) : scatter a ws = a := by
  induction ws with
  | nil => rfl
  | cons w rest ih =>
    have hstep : scatter a (w :: rest) = scatter (a.set w.1 w.2) rest := rfl
    rw [hstep, set_getq_self (h w (by simp))]
    exact ih (fun w' hw' => h w' (by simp [hw']))

theorem lastWrite_append {α : Type} (ws₁ ws₂ : List (Nat × α)) (q : Nat) :
    lastWrite (ws₁ ++ ws₂) q =
      match lastWrite ws₂ q with
      | some v => some v
      | none => lastWrite ws₁ q := by
  induction ws₁ with
  | nil => cases h : lastWrite ws₂ q <;> simp [lastWrite, h]
  | cons w rest ih =>
    rw [List.cons_append, lastWrite, ih, lastWrite]
    cases h : lastWrite ws₂ q with
    | some v => rfl
    | none => rfl

theorem lastWrite_range {α : Type} (f : Nat → Nat × α) (L q k : Nat)
    (hk : k < L) (hq : (f k).1 = q)
    (hinj : ∀ t, k < t → t < L → (f t).1 ≠ q) :
    lastWrite ((List.range L).map f) q = some (f k).2 := by
  induction L with
  | zero => omega
  | succ L ih =>
    rw [List.range_succ, List.map_append, lastWrite_append]
    rcases Nat.lt_or_ge k L with hkL | hkL
    · have hfL : (f L).1 ≠ q := hinj L hkL (by omega)
      simp only [List.map_cons, List.map_nil, lastWrite]
      rw [if_neg hfL]
      exact ih hkL (fun t ht htL => hinj t ht (by omega))
    · have hkeq : k = L := by omega
      subst hkeq
      simp only [List.map_cons, List.map_nil, lastWrite]
      rw [if_pos hq]

theorem lastWrite_range_inv {α : Type} (f : Nat → Nat × α) (L q : Nat) (v : α)
    (h : lastWrite ((List.range L).map f) q = some v) :
    ∃ t, t < L ∧ (f t).1 = q ∧ (f t).2 = v ∧
      ∀ t', t < t' → t' < L → (f t').1 ≠ q := by
  induction L with
  | zero => simp [lastWrite] at h
  | succ L ih =>
    rw [List.range_succ, List.map_append, lastWrite_append] at h
    simp only [List.map_cons, List.map_nil, lastWrite] at h
    by_cases hfL : (f L).1 = q
    · rw [if_pos hfL] at h
      injection h with h
      exact ⟨L, by omega, hfL, h, fun t' h1 h2 _ => by omega⟩
    · rw [if_neg hfL] at h
      obtain ⟨t, ht, h1, h2, h3⟩ := ih h
      refine ⟨t, by omega, h1, h2, fun t' ha hb => ?_⟩
      rcases Nat.lt_or_ge t' L with hc | hc
      · exact h3 t' ha hc
      · have : t' = L := by omega
        subst this
        exact hfL

/-! Characterization of the `add_ids` walk with `overwrite=True`. -/

theorem newCountBefore_zero (indexIds ids : List String) :
    newCountBefore indexIds ids 0 = 0 := by
  simp [newCountBefore]

theorem newCountBefore_cons_new {indexIds : List String} {a : String}
    (ha : isNew indexIds a = true) (rest : List String) (k : Nat) :
    newCountBefore indexIds (a :: rest) (k + 1) =
      newCountBefore indexIds rest k + 1 := by
  simp only [newCountBefore, List.take_succ_cons, List.filter_cons, ha]
  simp [Nat.add_comm]

theorem newCountBefore_cons_old {indexIds : List String} {a : String}
    (ha : isNew indexIds a = false) (rest : List String) (k : Nat) :
    newCountBefore indexIds (a :: rest) (k + 1) =
      newCountBefore indexIds rest k := by
  simp only [newCountBefore, List.take_succ_cons, List.filter_cons, ha]
  simp

theorem newCount_cons_new {indexIds : List String} {a : String}
    (ha : isNew indexIds a = true) (rest : List String) :
    newCount indexIds (a :: rest) = newCount indexIds rest + 1 := by
  simp only [newCount, List.filter_cons, ha]
  simp [Nat.add_comm]

theorem newCount_cons_old {indexIds : List String} {a : String}
    (ha : isNew indexIds a = false) (rest : List String) :
    newCount indexIds (a :: rest) = newCount indexIds rest := by
  simp only [newCount, List.filter_cons, ha]
  simp

theorem idAt_cons_succ (a : String) (rest : List String) (t : Nat) :
    idAt (a :: rest) (t + 1) = idAt rest t := rfl

theorem idAt_cons_zero (a : String) (rest : List String) :
    idAt (a :: rest) 0 = a := rfl

theorem newCountBefore_length (indexIds ids : List String) :
    newCountBefore indexIds ids ids.length = newCount indexIds ids := by
  simp [newCountBefore, newCount, List.take_length]

theorem newCountBefore_mono (indexIds ids : List String) {k k' : Nat} (h : k ≤ k') :
    newCountBefore indexIds ids k ≤ newCountBefore indexIds ids k' := by
  have hpre : ids.take k <+: ids.take k' := by
    have := List.take_take k k' ids
    rw [Nat.min_eq_left h] at this
    exact this ▸ List.take_prefix k (ids.take k')
  exact List.Sublist.length_le (List.Sublist.filter _ hpre.sublist)

theorem newCountBefore_succ (indexIds : List String) :
    ∀ (ids : List String) (k : Nat), k < ids.length →
      newCountBefore indexIds ids (k + 1) =
        newCountBefore indexIds ids k +
          (if isNew indexIds (idAt ids k) then 1 else 0)
  | [], k, h => by simp at h
  | a :: rest, 0, _ => by
    cases ha : isNew indexIds a with
    | true => rw [newCountBefore_cons_new ha, newCountBefore_zero,
        newCountBefore_zero]; simp [idAt_cons_zero, ha]
    | false => rw [newCountBefore_cons_old ha, newCountBefore_zero,
        newCountBefore_zero]; simp [idAt_cons_zero, ha]
  | a :: rest, k + 1, h => by
    have hk : k < rest.length := by simpa using h
    cases ha : isNew indexIds a with
    | true =>
      rw [newCountBefore_cons_new ha, newCountBefore_cons_new ha,
        newCountBefore_succ indexIds rest k hk, idAt_cons_succ]
      omega
    | false =>
      rw [newCountBefore_cons_old ha, newCountBefore_cons_old ha,
        newCountBefore_succ indexIds rest k hk, idAt_cons_succ]

theorem newCountBefore_le_newCount (indexIds ids : List String) (k : Nat) :
    newCountBefore indexIds ids k ≤ newCount indexIds ids := by
  rcases Nat.le_total k ids.length with h | h
  · rw [← newCountBefore_length]
    exact newCountBefore_mono indexIds ids h
  · have : ids.take k = ids := List.take_of_length_le h
    rw [newCountBefore, this, newCount]

theorem writePos_cons_new {indexIds : List String} {a : String}
    (ha : lastIdx indexIds a = none) (rest : List String) (c0 t : Nat) :
    writePos indexIds c0 (a :: rest) (t + 1) = writePos indexIds (c0 + 1) rest t := by
  have ha' : isNew indexIds a = true := by simp [isNew, ha]
  unfold writePos
  rw [idAt_cons_succ]
  cases lastIdx indexIds (idAt rest t) with
  | some j => rfl
  | none =>
    simp only [newCountBefore_cons_new ha' rest t]
    omega

theorem writePos_cons_old {indexIds : List String} {a : String} {j0 : Nat}
    (ha : lastIdx indexIds a = some j0) (rest : List String) (c0 t : Nat) :
    writePos indexIds c0 (a :: rest) (t + 1) = writePos indexIds c0 rest t := by
  have ha' : isNew indexIds a = false := by simp [isNew, ha]
  unfold writePos
  rw [idAt_cons_succ]
  cases lastIdx indexIds (idAt rest t) with
  | some j => rfl
  | none => simp only [newCountBefore_cons_old ha' rest t]

/-- The `add_ids` walk with `overwrite=True` enumerated: step `t` writes
incoming position `i0 + t` to `writePos` of `t`. -/
theorem walk_enum (indexIds : List String) :
    ∀ (ids : List String) (i0 c0 : Nat),
      walkAux indexIds true ids i0 c0 =
        (List.range ids.length).map
          (fun t => (i0 + t, writePos indexIds c0 ids t))
  | [], i0, c0 => by simp [walkAux]
  | a :: rest, i0, c0 => by
    have htail : ∀ t ∈ List.range rest.length,
        ((fun t => (i0 + t, writePos indexIds c0 (a :: rest) t)) ∘ Nat.succ) t
          = (fun t => (i0 + 1 + t, writePos indexIds
              (if isNew indexIds a then c0 + 1 else c0) rest t)) t := by
      intro t _
      simp only [Function.comp_apply]
      cases ha : lastIdx indexIds a with
      | none =>
        have ha' : isNew indexIds a = true := by simp [isNew, ha]
        rw [ha', if_pos rfl, writePos_cons_new ha rest c0 t]
        have h1 : i0 + Nat.succ t = i0 + 1 + t := by omega
        rw [h1]
      | some j =>
        have ha' : isNew indexIds a = false := by simp [isNew, ha]
        rw [ha', if_neg (by simp), writePos_cons_old ha rest c0 t]
        have h1 : i0 + Nat.succ t = i0 + 1 + t := by omega
        rw [h1]
    rw [List.length_cons, List.range_succ_eq_map, List.map_cons, List.map_map,
      List.map_congr_left htail]
    cases ha : lastIdx indexIds a with
    | none =>
      have ha' : isNew indexIds a = true := by simp [isNew, ha]
      rw [ha', if_pos rfl, walkAux]
      simp only [ha]
      rw [walk_enum indexIds rest (i0 + 1) (c0 + 1)]
      have hhead : writePos indexIds c0 (a :: rest) 0 = c0 := by
        unfold writePos
        rw [idAt_cons_zero, ha, newCountBefore_zero]
        rfl
      rw [hhead]
      simp
    | some j =>
      have ha' : isNew indexIds a = false := by simp [isNew, ha]
      have hwalk : walkAux indexIds true (a :: rest) i0 c0
          = (i0, j) :: walkAux indexIds true rest (i0 + 1) c0 := by
        rw [walkAux, ha]
        simp
      rw [ha', if_neg (by simp), hwalk]
      rw [walk_enum indexIds rest (i0 + 1) c0]
      have hhead : writePos indexIds c0 (a :: rest) 0 = j := by
        unfold writePos
        rw [idAt_cons_zero, ha]
      rw [hhead]
      simp

theorem idAt_eq_of_getq {l : List String} {k : Nat} {x : String}
    (h : l.get? k = some x) : idAt l k = x := by
  rw [idAt, h]
  rfl

theorem writePos_existing {indexIds ids : List String} {c0 k j : Nat}
    (h : lastIdx indexIds (idAt ids k) = some j) :
    writePos indexIds c0 ids k = j := by
  unfold writePos
  rw [h]

theorem writePos_new {indexIds ids : List String} {c0 k : Nat}
    (h : lastIdx indexIds (idAt ids k) = none) :
    writePos indexIds c0 ids k = c0 + newCountBefore indexIds ids k := by
  unfold writePos
  rw [h]

/-- Every write position is below `c0 + K` provided looked-up positions are
below `c0` (true when `c0 = len(index_ids)`) and the step is in range. -/
theorem writePos_lt {indexIds ids : List String} {c0 k : Nat}
    (hc0 : indexIds.length ≤ c0) (hk : k < ids.length) :
    writePos indexIds c0 ids k < c0 + newCount indexIds ids := by
  cases h : lastIdx indexIds (idAt ids k) with
  | some j =>
    rw [writePos_existing h]
    have := lastIdx_lt_length h
    omega
  | none =>
    rw [writePos_new h]
    have hnew : isNew indexIds (idAt ids k) = true := by simp [isNew, h]
    have h1 : newCountBefore indexIds ids (k + 1) =
        newCountBefore indexIds ids k + 1 := by
      rw [newCountBefore_succ indexIds ids k hk, if_pos hnew]
    have h2 := newCountBefore_le_newCount indexIds ids (k + 1)
    omega

/-- No later step writes to the position of the LAST occurrence of an id. -/
theorem writePos_last_unique {indexIds ids : List String} {c0 : Nat}
    (hc0 : indexIds.length ≤ c0) {x : String} {k : Nat}
    (hk : lastIdx ids x = some k) {t : Nat} (ht : k < t) (htL : t < ids.length) :
    writePos indexIds c0 ids t ≠ writePos indexIds c0 ids k := by
  have hgk : ids.get? k = some x := lastIdx_getq hk
  have hdk : idAt ids k = x := idAt_eq_of_getq hgk
  obtain ⟨y, hgy⟩ : ∃ y, ids.get? t = some y := by
    cases hgy : ids.get? t with
    | none => exact absurd (List.get?_eq_none.mp hgy) (by omega)
    | some y => exact ⟨y, rfl⟩
  have hdy : idAt ids t = y := idAt_eq_of_getq hgy
  have hyx : y ≠ x := by
    intro hcon
    exact lastIdx_isLast hk t ht (hcon ▸ hgy)
  cases hby : lastIdx indexIds y with
  | some jy =>
    cases hbx : lastIdx indexIds x with
    | some jx =>
      rw [writePos_existing (hdy ▸ hby), writePos_existing (hdk ▸ hbx)]
      intro hcon
      exact hyx (lastIdx_inj hby (hcon ▸ hbx))
    | none =>
      rw [writePos_existing (hdy ▸ hby), writePos_new (hdk ▸ hbx)]
      have := lastIdx_lt_length hby
      omega
  | none =>
    cases hbx : lastIdx indexIds x with
    | some jx =>
      rw [writePos_new (hdy ▸ hby), writePos_existing (hdk ▸ hbx)]
      have := lastIdx_lt_length hbx
      omega
    | none =>
      rw [writePos_new (hdy ▸ hby), writePos_new (hdk ▸ hbx)]
      have hnewk : isNew indexIds (idAt ids k) = true := by
        simp [isNew, hdk, hbx]
      have h1 : newCountBefore indexIds ids (k + 1) =
          newCountBefore indexIds ids k + 1 := by
        rw [newCountBefore_succ indexIds ids k (by omega), if_pos hnewk]
      have h2 := newCountBefore_mono indexIds ids (show k + 1 ≤ t by omega)
      omega

/-! Gather lemmas. -/

theorem gather_map_succ {α : Type} (a : α) (rest : List α) (inds : List Nat) :
    gather (a :: rest) (inds.map Nat.succ) = gather rest inds := by
  induction inds with
  | nil => rfl
  | cons i tail ih =>
    rw [List.map_cons, gather, gather, ih]
    rfl

theorem gather_range {α : Type} :
    ∀ (l : List α) (L : Nat), L ≤ l.length →
      gather l (List.range L) = some (l.take L)
  | l, 0, _ => by simp [gather]
  | [], L + 1, h => by simp at h
  | a :: rest, L + 1, h => by
    rw [List.range_succ_eq_map, gather]
    have : (List.range L).map (· + 1) = (List.range L).map Nat.succ := rfl
    rw [this, gather_map_succ a rest (List.range L),
      gather_range rest L (by simpa using h)]
    simp

/-- The central scatter lemma: scattering the gathered incoming ids over the
walk's write set onto the array extended by exactly the number of fresh
positions appends the new occurrences, in order, after the unchanged stored
prefix. -/
theorem scatter_walk (indexIds : List String) :
    ∀ (ids a : List String) (i0 : Nat),
      (∀ x j, lastIdx indexIds x = some j → a.get? j = some x) →
      indexIds.length ≤ a.length →
      scatter (a ++ List.replicate (newCount indexIds ids) "")
        (((walkAux indexIds true ids i0 a.length).map Prod.snd).zip ids)
        = a ++ ids.filter (isNew indexIds)
  | [], a, i0, _, _ => by simp [walkAux, scatter, newCount]
  | x :: rest, a, i0, hmap, hlen => by
    cases hx : lastIdx indexIds x with
    | none =>
      have hx' : isNew indexIds x = true := by simp [isNew, hx]
      rw [walkAux]
      simp only [hx, List.map_cons, List.zip_cons_cons]
      have hK : newCount indexIds (x :: rest) = newCount indexIds rest + 1 :=
        newCount_cons_new hx' rest
      have hstep : scatter (a ++ List.replicate (newCount indexIds (x :: rest)) "")
          ((a.length, x) :: ((walkAux indexIds true rest (i0 + 1) (a.length + 1)).map
            Prod.snd).zip rest)
          = scatter ((a ++ List.replicate (newCount indexIds (x :: rest)) "").set
              a.length x)
            (((walkAux indexIds true rest (i0 + 1) (a.length + 1)).map
              Prod.snd).zip rest) := rfl
      rw [hstep, hK, List.replicate_succ]
      have hset : (a ++ "" :: List.replicate (newCount indexIds rest) "").set
          a.length x = (a ++ [x]) ++ List.replicate (newCount indexIds rest) "" := by
        have := set_append_right a ("" :: List.replicate (newCount indexIds rest) "")
          0 x
        simpa using this
      rw [hset]
      have hlen1 : (a ++ [x]).length = a.length + 1 := by simp
      rw [← hlen1]
      rw [scatter_walk indexIds rest (a ++ [x]) (i0 + 1)
        (fun y j hy => by
          have hja : j < a.length := Nat.lt_of_lt_of_le (lastIdx_lt_length hy) hlen
          rw [getq_append_left [x] hja]
          exact hmap y j hy)
        (by simp; omega)]
      simp only [List.filter_cons, hx']
      simp

    | some j =>
      have hx' : isNew indexIds x = false := by simp [isNew, hx]
      have hwalk : walkAux indexIds true (x :: rest) i0 a.length
          = (i0, j) :: walkAux indexIds true rest (i0 + 1) a.length := by
        rw [walkAux, hx]
        simp
      rw [hwalk]
      simp only [List.map_cons, List.zip_cons_cons]
      have hstep : scatter (a ++ List.replicate (newCount indexIds (x :: rest)) "")
          ((j, x) :: ((walkAux indexIds true rest (i0 + 1) a.length).map
            Prod.snd).zip rest)
          = scatter ((a ++ List.replicate (newCount indexIds (x :: rest)) "").set j x)
            (((walkAux indexIds true rest (i0 + 1) a.length).map
              Prod.snd).zip rest) := rfl
      rw [hstep]
      have hja : j < a.length := Nat.lt_of_lt_of_le (lastIdx_lt_length hx) hlen
      have hgj : (a ++ List.replicate (newCount indexIds (x :: rest)) "").get? j
          = some x := by
        rw [getq_append_left _ hja]
        exact hmap x j hx
      rw [set_getq_self hgj, newCount_cons_old hx' rest]
      rw [scatter_walk indexIds rest a (i0 + 1) hmap hlen]
      simp [List.filter_cons, hx']

/-! Reduction lemmas for `addIds` with `overwrite=True, allow_existing=True`. -/

theorem ifEmpty_eq (l : List String) :
    (if l.length = 0 then ([] : List String) else l) = l := by
  split
  · next h => exact (List.length_eq_zero.mp h).symm
  · rfl

theorem map_range_getLastD {α : Type} (g : Nat → α) (L : Nat) (hL : 0 < L) (d : α) :
    ((List.range L).map g).getLastD d = g (L - 1) := by
  cases L with
  | zero => omega
  | succ L =>
    rw [List.range_succ, List.map_append]
    simp

theorem buildWrites_length (iS s : List String) :
    (buildWrites iS true s).length = s.length := by
  rw [buildWrites, walk_enum]
  simp

theorem buildWrites_fst (iS s : List String) :
    (buildWrites iS true s).map Prod.fst = List.range s.length := by
  rw [buildWrites, walk_enum, List.map_map]
  have h1 : (Prod.fst ∘ fun t => (0 + t, writePos iS iS.length s t)) = fun t => t := by
    funext t
    simp
  rw [h1]
  simp

theorem buildWrites_snd (iS s : List String) :
    (buildWrites iS true s).map Prod.snd
      = (List.range s.length).map (writePos iS iS.length s) := by
  rw [buildWrites, walk_enum, List.map_map]
  rfl

theorem gather_buildWrites (iS s : List String) :
    gather s ((buildWrites iS true s).map Prod.fst) = some s := by
  rw [buildWrites_fst, gather_range s s.length le_rfl, List.take_length]

theorem idAt_getLastD : ∀ (s : List String), s ≠ [] → ∀ (d : String),
    idAt s (s.length - 1) = s.getLastD d
  | [], h, _ => absurd rfl h
  | [a], _, d => rfl
  | a :: b :: rest, _, d => by
    have h1 : (a :: b :: rest).length - 1 = (b :: rest).length := by simp
    rw [h1]
    have h2 : (b :: rest).length = ((b :: rest).length - 1) + 1 := by simp
    rw [h2, idAt_cons_succ]
    rw [idAt_getLastD (b :: rest) (by simp) a]
    rfl

theorem newCount_eq_zero_isNew {iS s : List String} (h : newCount iS s = 0) :
    ∀ x ∈ s, isNew iS x = false := by
  intro x hx
  have : s.filter (isNew iS) = [] := List.length_eq_zero.mp h
  cases hn : isNew iS x with
  | false => rfl
  | true =>
    have : x ∈ s.filter (isNew iS) := List.mem_filter.mpr ⟨hx, hn⟩
    rw [List.length_eq_zero.mp h] at this
    cases this

/-- The resize amount computed by `add_ids` equals the fresh-position count
exactly when `addFits` holds and the batch is nonempty. -/
theorem ext_eq_newCount {iS s : List String} (hs : s ≠ [])
    (hfit : addFits iS s) :
    (((List.range s.length).map (writePos iS iS.length s)).getLastD 0 : Int)
        - (iS.length : Int) + 1
      = (newCount iS s : Int) ∨
    ((((List.range s.length).map (writePos iS iS.length s)).getLastD 0 : Int)
        - (iS.length : Int) + 1 ≤ 0 ∧ newCount iS s = 0) := by
  have hL : 0 < s.length := List.length_pos.mpr hs
  rw [map_range_getLastD _ _ hL]
  rcases hfit with h | h | h
  · exact absurd h hs
  · right
    constructor
    · obtain ⟨y, hy⟩ : ∃ y, s.get? (s.length - 1) = some y := by
        cases hg : s.get? (s.length - 1) with
        | none => exact absurd (List.get?_eq_none.mp hg) (by omega)
        | some y => exact ⟨y, rfl⟩
      have hmem : y ∈ s := List.get?_mem hy
      have : isNew iS y = false := newCount_eq_zero_isNew h y hmem
      obtain ⟨j, hj⟩ : ∃ j, lastIdx iS y = some j := by
        cases hl : lastIdx iS y with
        | none => rw [isNew, hl] at this; cases this
        | some j => exact ⟨j, rfl⟩
      rw [writePos_existing (by rw [idAt_eq_of_getq hy]; exact hj)]
      have := lastIdx_lt_length hj
      omega
    · exact h
  · left
    have hnew : lastIdx iS (idAt s (s.length - 1)) = none := by
      rw [idAt_getLastD s hs ""]
      rw [isNew] at h
      cases hl : lastIdx iS (s.getLastD "") with
      | none => rfl
      | some j => rw [hl] at h; cases h
    rw [writePos_new hnew]
    have hstep : newCountBefore iS s ((s.length - 1) + 1)
        = newCountBefore iS s (s.length - 1) + 1 := by
      rw [newCountBefore_succ iS s (s.length - 1) (by omega)]
      rw [if_pos (by rw [isNew, hnew]; rfl)]
    have hlen1 : (s.length - 1) + 1 = s.length := by omega
    rw [hlen1] at hstep
    rw [newCountBefore_length] at hstep
    omega

/-- Closed form for a fitting `add_ids` call in sample mode: the stored array
is extended by exactly the new occurrences, in incoming order. -/
theorem addIds_sample_ok (s l iS iL : List String) (we : Bool)
    (hfit : addFits iS s) :
    addIds s l iS iL false true true we
      = .ok ⟨iS ++ s.filter (isNew iS), iL,
          (buildWrites iS true s).map Prod.fst,
          (buildWrites iS true s).map Prod.snd, []⟩ := by
  have hred : addIds s l iS iL false true true we
      = addIdsFinish s l iS iL false (buildWrites iS true s) [] := rfl
  rw [hred]
  cases hs : s with
  | nil =>
    rw [addIdsFinish]
    simp [buildWrites, walkAux]
  | cons a srest =>
    rw [← hs]
    have hsne : s ≠ [] := by rw [hs]; exact List.cons_ne_nil a srest
    have hW : (buildWrites iS true s).isEmpty = false := by
      cases hBW : buildWrites iS true s with
      | nil =>
        have := buildWrites_length iS s
        rw [hBW] at this
        exact absurd (List.length_eq_zero.mp this.symm) hsne
      | cons w ws => rfl
    rw [addIdsFinish]
    rw [if_neg (by rw [hW]; simp)]
    rw [gather_buildWrites iS s]
    dsimp only
    have hjl := buildWrites_snd iS s
    have hext := ext_eq_newCount hsne hfit
    have hextN : Int.toNat
        (((buildWrites iS true s).map Prod.snd).getLastD 0 - (iS.length : Int) + 1)
        = newCount iS s := by
      rw [hjl]
      rcases hext with h | ⟨h1, h2⟩
      · omega
      · omega
    rw [hextN, ifEmpty_eq]
    have hall : ((buildWrites iS true s).map Prod.snd).all
        (fun j => decide (j < (iS ++ List.replicate (newCount iS s) "").length))
        = true := by
      rw [List.all_eq_true]
      intro j hj
      rw [hjl] at hj
      obtain ⟨t, htmem, hteq⟩ := List.mem_map.mp hj
      have htL : t < s.length := List.mem_range.mp htmem
      have := @writePos_lt iS s iS.length _ le_rfl htL
      simp only [List.length_append, List.length_replicate]
      rw [← hteq] at *
      simp
      omega
    rw [hall]
    rw [if_pos rfl]
    have hsc : scatter (iS ++ List.replicate (newCount iS s) "")
        (((buildWrites iS true s).map Prod.snd).zip s)
        = iS ++ s.filter (isNew iS) :=
      scatter_walk iS s iS 0 (fun x j h => lastIdx_getq h) le_rfl
    rw [hsc]
    simp

theorem exists_new_step {iS s : List String} (h : newCount iS s ≠ 0) :
    ∃ t, t < s.length ∧ lastIdx iS (idAt s t) = none := by
  have hne : s.filter (isNew iS) ≠ [] := by
    intro hc
    exact h (by rw [newCount, hc]; rfl)
  obtain ⟨x, hx⟩ := List.exists_mem_of_ne_nil _ hne
  obtain ⟨hxs, hxn⟩ := List.mem_filter.mp hx
  obtain ⟨t, ht⟩ := List.get?_of_mem hxs
  refine ⟨t, List.get?_eq_some.mp ht |>.1, ?_⟩
  rw [idAt_eq_of_getq ht]
  rw [isNew] at hxn
  cases hl : lastIdx iS x with
  | none => rfl
  | some j => rw [hl] at hxn; cases hxn

/-- When the batch does not fit — there are fresh positions but the final
write is an in-place overwrite — the numpy scatter in `add_ids` is out of
bounds and the call raises `IndexError` (sample mode). -/
theorem addIds_sample_fail (s l iS iL : List String) (we : Bool)
    (hfit : ¬ addFits iS s) :
    addIds s l iS iL false true true we = .fail .indexError := by
  have hsne : s ≠ [] := fun hc => hfit (Or.inl hc)
  have hK : newCount iS s ≠ 0 := fun hc => hfit (Or.inr (Or.inl hc))
  have hlast : isNew iS (s.getLastD "") = false := by
    cases hl : isNew iS (s.getLastD "") with
    | false => rfl
    | true => exact absurd (Or.inr (Or.inr hl)) hfit
  have hred : addIds s l iS iL false true true we
      = addIdsFinish s l iS iL false (buildWrites iS true s) [] := rfl
  rw [hred]
  have hW : (buildWrites iS true s).isEmpty = false := by
    cases hBW : buildWrites iS true s with
    | nil =>
      have := buildWrites_length iS s
      rw [hBW] at this
      exact absurd (List.length_eq_zero.mp this.symm) hsne
    | cons w ws => rfl
  rw [addIdsFinish]
  rw [if_neg (by rw [hW]; simp)]
  rw [gather_buildWrites iS s]
  dsimp only
  have hjl := buildWrites_snd iS s
  have hL : 0 < s.length := List.length_pos.mpr hsne
  obtain ⟨j, hj⟩ : ∃ j, lastIdx iS (idAt s (s.length - 1)) = some j := by
    rw [idAt_getLastD s hsne ""]
    rw [isNew] at hlast
    cases hl : lastIdx iS (s.getLastD "") with
    | none => rw [hl] at hlast; cases hlast
    | some j => exact ⟨j, rfl⟩
  have hextN : (((buildWrites iS true s).map Prod.snd).getLastD 0
      - (iS.length : Int) + 1).toNat = 0 := by
    rw [hjl, map_range_getLastD _ _ hL, writePos_existing hj]
    have := lastIdx_lt_length hj
    omega
  rw [hextN, ifEmpty_eq]
  obtain ⟨t, htL, htnew⟩ := exists_new_step hK
  have hallF : ((buildWrites iS true s).map Prod.snd).all
      (fun j => decide (j < (iS ++ List.replicate 0 "").length)) = false := by
    cases hb : ((buildWrites iS true s).map Prod.snd).all
        (fun j => decide (j < (iS ++ List.replicate 0 "").length)) with
    | false => rfl
    | true =>
      exfalso
      have hmem : writePos iS iS.length s t ∈ (buildWrites iS true s).map Prod.snd := by
        rw [hjl]
        exact List.mem_map.mpr ⟨t, List.mem_range.mpr htL, rfl⟩
      have := List.all_eq_true.mp hb _ hmem
      rw [writePos_new htnew] at this
      simp at this
  rw [hallF]
  simp

theorem gather_none {α : Type} (l : List α) (inds : List Nat)
    (h : ∃ i ∈ inds, l.length ≤ i) : gather l inds = none := by
  induction inds with
  | nil => simp at h
  | cons i rest ih =>
    rw [gather]
    obtain ⟨i', hi'mem, hi'⟩ := h
    rcases List.mem_cons.mp hi'mem with heq | hmem
    · subst heq
      rw [List.get?_eq_none.mpr hi']
    · rw [ih ⟨i', hmem, hi'⟩]
      cases l.get? i <;> rfl

/-- Closed form for a fitting `add_ids` call in patch mode: the label array is
extended by the new label occurrences; the sample array is the scatter of the
incoming sample ids over the label-driven write set. -/
theorem addIds_patch_ok (samples labels iS iL : List String) (we : Bool)
    (hn : iS.length = iL.length) (hsl : labels.length ≤ samples.length)
    (hfit : addFits iL labels) :
    addIds samples labels iS iL true true true we
      = .ok ⟨scatter (iS ++ List.replicate (newCount iL labels) "")
              (((buildWrites iL true labels).map Prod.snd).zip
                (samples.take labels.length)),
          iL ++ labels.filter (isNew iL),
          (buildWrites iL true labels).map Prod.fst,
          (buildWrites iL true labels).map Prod.snd, []⟩ := by
  have hred : addIds samples labels iS iL true true true we
      = addIdsFinish samples labels iS iL true (buildWrites iL true labels) [] := rfl
  rw [hred]
  cases hlab : labels with
  | nil =>
    rw [addIdsFinish]
    simp [buildWrites, walkAux, scatter, newCount]
  | cons a lrest =>
    rw [← hlab]
    have hlne : labels ≠ [] := by rw [hlab]; exact List.cons_ne_nil a lrest
    have hW : (buildWrites iL true labels).isEmpty = false := by
      cases hBW : buildWrites iL true labels with
      | nil =>
        have := buildWrites_length iL labels
        rw [hBW] at this
        exact absurd (List.length_eq_zero.mp this.symm) hlne
      | cons w ws => rfl
    rw [addIdsFinish]
    rw [if_neg (by rw [hW]; simp)]
    have hgs : gather samples ((buildWrites iL true labels).map Prod.fst)
        = some (samples.take labels.length) := by
      rw [buildWrites_fst, gather_range samples labels.length hsl]
    rw [hgs]
    dsimp only
    have hjl := buildWrites_snd iL labels
    have hext := ext_eq_newCount hlne hfit
    have hextN : Int.toNat
        (((buildWrites iL true labels).map Prod.snd).getLastD 0
          - (iS.length : Int) + 1)
        = newCount iL labels := by
      rw [hjl, hn]
      rcases hext with h | ⟨h1, h2⟩
      · omega
      · omega
    rw [hextN, ifEmpty_eq]
    have hl0 : (if iS.length = 0 ∧ (true : Bool) = true then ([] : List String)
        else iL) = iL := by
      split
      · next h => exact (List.length_eq_zero.mp (hn ▸ h.1)).symm
      · rfl
    rw [hl0]
    have hallS : ((buildWrites iL true labels).map Prod.snd).all
        (fun j => decide (j < (iS ++ List.replicate (newCount iL labels) "").length))
        = true := by
      rw [List.all_eq_true]
      intro j hj
      rw [hjl] at hj
      obtain ⟨t, htmem, hteq⟩ := List.mem_map.mp hj
      have htL : t < labels.length := List.mem_range.mp htmem
      have := @writePos_lt iL labels iL.length _ le_rfl htL
      simp only [List.length_append, List.length_replicate]
      rw [← hteq] at *
      simp
      omega
    rw [hallS, if_pos rfl]
    have hgl : gather labels ((buildWrites iL true labels).map Prod.fst)
        = some labels := gather_buildWrites iL labels
    rw [hgl]
    dsimp only
    simp only [eq_self_iff_true, if_true]
    have hallL : ((buildWrites iL true labels).map Prod.snd).all
        (fun j => decide (j < (iL ++ List.replicate (newCount iL labels) "").length))
        = true := by
      rw [List.all_eq_true]
      intro j hj
      rw [hjl] at hj
      obtain ⟨t, htmem, hteq⟩ := List.mem_map.mp hj
      have htL : t < labels.length := List.mem_range.mp htmem
      have := @writePos_lt iL labels iL.length _ le_rfl htL
      simp only [List.length_append, List.length_replicate]
      rw [← hteq] at *
      simp
      omega
    rw [hallL, if_pos rfl]
    have hsc : scatter (iL ++ List.replicate (newCount iL labels) "")
        (((buildWrites iL true labels).map Prod.snd).zip labels)
        = iL ++ labels.filter (isNew iL) :=
      scatter_walk iL labels iL 0 (fun x j h => lastIdx_getq h) le_rfl
    rw [hsc]

/-- When the incoming label list is longer than the incoming sample list, the
gather `sample_ids[ii]` in patch mode is out of bounds. -/
theorem addIds_patch_fail_gather (samples labels iS iL : List String) (we : Bool)
    (hsl : samples.length < labels.length) :
    addIds samples labels iS iL true true true we = .fail .indexError := by
  have hlne : labels ≠ [] := by
    intro hc
    rw [hc] at hsl
    simp at hsl
  have hred : addIds samples labels iS iL true true true we
      = addIdsFinish samples labels iS iL true (buildWrites iL true labels) [] := rfl
  rw [hred]
  have hW : (buildWrites iL true labels).isEmpty = false := by
    cases hBW : buildWrites iL true labels with
    | nil =>
      have := buildWrites_length iL labels
      rw [hBW] at this
      exact absurd (List.length_eq_zero.mp this.symm) hlne
    | cons w ws => rfl
  rw [addIdsFinish]
  rw [if_neg (by rw [hW]; simp)]
  have hgs : gather samples ((buildWrites iL true labels).map Prod.fst) = none := by
    rw [buildWrites_fst]
    exact gather_none samples _ ⟨samples.length, List.mem_range.mpr hsl, le_rfl⟩
  rw [hgs]

/-- In patch mode with aligned index arrays, a non-fitting batch crashes with
`IndexError` (the sample-array scatter is out of bounds). -/
theorem addIds_patch_fail_nofit (samples labels iS iL : List String) (we : Bool)
    (hn : iS.length = iL.length) (hsl : labels.length ≤ samples.length)
    (hfit : ¬ addFits iL labels) :
    addIds samples labels iS iL true true true we = .fail .indexError := by
  have hlne : labels ≠ [] := fun hc => hfit (Or.inl hc)
  have hK : newCount iL labels ≠ 0 := fun hc => hfit (Or.inr (Or.inl hc))
  have hlast : isNew iL (labels.getLastD "") = false := by
    cases hl : isNew iL (labels.getLastD "") with
    | false => rfl
    | true => exact absurd (Or.inr (Or.inr hl)) hfit
  have hred : addIds samples labels iS iL true true true we
      = addIdsFinish samples labels iS iL true (buildWrites iL true labels) [] := rfl
  rw [hred]
  have hW : (buildWrites iL true labels).isEmpty = false := by
    cases hBW : buildWrites iL true labels with
    | nil =>
      have := buildWrites_length iL labels
      rw [hBW] at this
      exact absurd (List.length_eq_zero.mp this.symm) hlne
    | cons w ws => rfl
  rw [addIdsFinish]
  rw [if_neg (by rw [hW]; simp)]
  have hgs : gather samples ((buildWrites iL true labels).map Prod.fst)
      = some (samples.take labels.length) := by
    rw [buildWrites_fst, gather_range samples labels.length hsl]
  rw [hgs]
  dsimp only
  have hjl := buildWrites_snd iL labels
  have hL : 0 < labels.length := List.length_pos.mpr hlne
  obtain ⟨j, hj⟩ : ∃ j, lastIdx iL (idAt labels (labels.length - 1)) = some j := by
    rw [idAt_getLastD labels hlne ""]
    rw [isNew] at hlast
    cases hl : lastIdx iL (labels.getLastD "") with
    | none => rw [hl] at hlast; cases hlast
    | some j => exact ⟨j, rfl⟩
  have hextN : (((buildWrites iL true labels).map Prod.snd).getLastD 0
      - (iS.length : Int) + 1).toNat = 0 := by
    rw [hjl, map_range_getLastD _ _ hL, writePos_existing hj, hn]
    have := lastIdx_lt_length hj
    omega
  rw [hextN, ifEmpty_eq]
  obtain ⟨t, htL, htnew⟩ := exists_new_step hK
  have hallF : ((buildWrites iL true labels).map Prod.snd).all
      (fun j => decide (j < (iS ++ List.replicate 0 "").length)) = false := by
    cases hb : ((buildWrites iL true labels).map Prod.snd).all
        (fun j => decide (j < (iS ++ List.replicate 0 "").length)) with
    | false => rfl
    | true =>
      exfalso
      have hmem : writePos iL iL.length labels t
          ∈ (buildWrites iL true labels).map Prod.snd := by
        rw [hjl]
        exact List.mem_map.mpr ⟨t, List.mem_range.mpr htL, rfl⟩
      have := List.all_eq_true.mp hb _ hmem
      rw [writePos_new htnew] at this
      simp [hn] at this
  rw [hallF]
  simp

/-- Extraction: a successful patch-mode add implies the batch fitted and the
incoming arrays were long enough. -/
theorem addIds_patch_ok_inv {samples labels iS iL : List String} {we : Bool}
    {r : AddOut} (hn : iS.length = iL.length)
    (h : addIds samples labels iS iL true true true we = .ok r) :
    addFits iL labels ∧ labels.length ≤ samples.length := by
  by_cases hsl : labels.length ≤ samples.length
  · by_cases hfit : addFits iL labels
    · exact ⟨hfit, hsl⟩
    · rw [addIds_patch_fail_nofit samples labels iS iL we hn hsl hfit] at h
      cases h
  · rw [addIds_patch_fail_gather samples labels iS iL we (by omega)] at h
    cases h

/-- Extraction: a successful sample-mode add implies the batch fitted. -/
theorem addIds_sample_ok_inv {s l iS iL : List String} {we : Bool} {r : AddOut}
    (h : addIds s l iS iL false true true we = .ok r) : addFits iS s := by
  by_cases hfit : addFits iS s
  · exact hfit
  · rw [addIds_sample_fail s l iS iL we hfit] at h
    cases h

/-! Pagination lemmas for `add_to_index`. -/

theorem getLastD_irrel {α : Type} (l : List α) (h : l ≠ []) (d1 d2 : α) :
    l.getLastD d1 = l.getLastD d2 := by
  cases l with
  | nil => exact absurd rfl h
  | cons a rest =>
    rw [List.getLastD_cons, List.getLastD_cons]

theorem batches_small {α : Type} (v : List α) (p : Nat) (hp : 1 ≤ p)
    (hv : 1 ≤ v.length) (h : v.length ≤ p) : addToIndexBatches v p = [v] := by
  have hq : (v.length + p - 1) / p = 1 := by
    have h1 : v.length + p - 1 = (v.length - 1) + p := by omega
    rw [h1, Nat.add_div_right _ (by omega), Nat.div_eq_of_lt (by omega)]
  simp only [addToIndexBatches, hq]
  have hr1 : List.range 1 = [0] := rfl
  rw [hr1, List.map_cons, List.map_nil]
  have hmin : min (p * (0 + 1)) v.length = v.length := by
    have h2 : p * (0 + 1) = p := by simp
    rw [h2]
    omega
  rw [hmin]
  simp

theorem batches_step {α : Type} (v : List α) (p : Nat) (hp : 1 ≤ p)
    (h : p < v.length) :
    addToIndexBatches v p = v.take p :: addToIndexBatches (v.drop p) p := by
  have hq : (v.length + p - 1) / p = (((v.drop p).length + p - 1) / p) + 1 := by
    rw [List.length_drop]
    have h1 : v.length + p - 1 = (v.length - p - 1 + p) + p := by omega
    have h2 : v.length - p + p - 1 = (v.length - p - 1) + p := by omega
    rw [h1, h2, Nat.add_div_right _ (by omega), Nat.add_div_right _ (by omega)]
  simp only [addToIndexBatches, hq]
  rw [List.range_succ_eq_map, List.map_cons, List.map_map]
  congr 1
  · have hmin : min (p * (0 + 1)) v.length = p := by
      have h2 : p * (0 + 1) = p := by simp
      rw [h2]
      omega
    rw [hmin]
    simp
  · apply List.map_congr_left
    intro i _
    simp only [Function.comp_apply, Nat.succ_eq_add_one]
    have e3 : (v.drop p).length = v.length - p := List.length_drop p v
    have e4 : (v.drop (p * (i + 1))) = (v.drop p).drop (p * i) := by
      rw [List.drop_drop]
      congr 1
      rw [Nat.mul_succ]
      omega
    rw [e3, e4]
    congr 1
    have e1 : p * (i + 1) = p * i + p := Nat.mul_succ p i
    have e2 : p * (i + 1 + 1) = p * (i + 1) + p := Nat.mul_succ p (i + 1)
    omega

theorem addToIndexBatches_spec {α : Type} :
    ∀ (n : Nat) (v : List α), v.length = n → ∀ (p : Nat), 1 ≤ p → 1 ≤ v.length →
      (addToIndexBatches v p).length = (v.length + p - 1) / p ∧
      (addToIndexBatches v p).join = v ∧
      (∀ i, i + 1 < (v.length + p - 1) / p →
        ((addToIndexBatches v p).getD i []).length = p) ∧
      ((addToIndexBatches v p).getLastD []).length
        = v.length - p * ((v.length + p - 1) / p - 1) := by
  intro n
  induction n using Nat.strong_induction_on with
  | _ n ih =>
    intro v hvn p hp hv
    by_cases h : v.length ≤ p
    · rw [batches_small v p hp hv h]
      have hq : (v.length + p - 1) / p = 1 := by
        have h1 : v.length + p - 1 = (v.length - 1) + p := by omega
        rw [h1, Nat.add_div_right _ (by omega), Nat.div_eq_of_lt (by omega)]
      rw [hq]
      refine ⟨rfl, by simp, fun i hi => by omega, ?_⟩
      simp
    · push_neg at h
      have hd : (v.drop p).length = v.length - p := List.length_drop p v
      have hdlt : (v.drop p).length < n := by omega
      have hd1 : 1 ≤ (v.drop p).length := by omega
      obtain ⟨ihlen, ihjoin, ihsz, ihlast⟩ :=
        ih (v.drop p).length hdlt (v.drop p) rfl p hp hd1
      have hq : (v.length + p - 1) / p = (((v.drop p).length + p - 1) / p) + 1 := by
        rw [hd]
        have h1 : v.length + p - 1 = (v.length - p - 1 + p) + p := by omega
        have h2 : v.length - p + p - 1 = (v.length - p - 1) + p := by omega
        rw [h1, h2, Nat.add_div_right _ (by omega), Nat.add_div_right _ (by omega)]
      have hq1 : 1 ≤ ((v.drop p).length + p - 1) / p := by
        rw [Nat.le_div_iff_mul_le (by omega)]
        omega
      rw [batches_step v p hp h, hq]
      have hBne : addToIndexBatches (v.drop p) p ≠ [] := by
        intro hc
        have hz : (addToIndexBatches (v.drop p) p).length = 0 := by
          rw [hc]
          rfl
        rw [ihlen] at hz
        omega
      refine ⟨by simp [ihlen], by simp [ihjoin], ?_, ?_⟩
      · intro i hi
        cases i with
        | zero =>
          have : (v.take p).length = p := by
            rw [List.length_take]
            omega
          simpa using this
        | succ i =>
          have : i + 1 < ((v.drop p).length + p - 1) / p := by omega
          simpa using ihsz i this
      · rw [List.getLastD_cons, getLastD_irrel _ hBne _ [], ihlast]
        have hqd : (((v.drop p).length + p - 1) / p) + 1 - 1
            = (((v.drop p).length + p - 1) / p) := by omega
        rw [hqd]
        have hq'succ : (((v.drop p).length + p - 1) / p)
            = ((((v.drop p).length + p - 1) / p) - 1) + 1 := by omega
        have e : p * (((v.drop p).length + p - 1) / p)
            = p * ((((v.drop p).length + p - 1) / p) - 1) + p := by
          conv_lhs => rw [hq'succ]
          exact Nat.mul_succ p _
        omega

/-! Warning-content lemmas for `_parse_ids` and `_find_ids`. -/

theorem findIdsAux_allow_nil (indexIds : List String) :
    ∀ ids, (findIdsAux indexIds true ids).2 = []
  | [] => rfl
  | x :: rest => by
    rw [findIdsAux]
    cases lastIdx indexIds x with
    | some j => simpa using findIdsAux_allow_nil indexIds rest
    | none => simpa using findIdsAux_allow_nil indexIds rest

/-- Under the allow-missing policy, `_find_ids` records no missing ids at all
(they are only collected when `allow_missing` is false), so its warn branch is
unreachable and no warning is ever logged. -/
theorem findIds_allow_no_warning (ids indexIds : List String) (wm : Bool)
    (ft : String) :
    findIds ids indexIds true wm ft
      = .ok ((findIdsAux indexIds true ids).1, []) := by
  unfold findIds
  rcases haux : findIdsAux indexIds true ids with ⟨f, m⟩
  have hm : m = [] := by
    have := findIdsAux_allow_nil indexIds ids
    rw [haux] at this
    exact this
  subst hm
  simp

theorem mem_ite_singleton {c : Prop} [Decidable c] {k : String} {n : Nat}
    {w : Warning} (hw : w ∈ (if c then [(⟨k, n, none⟩ : Warning)] else [])) :
    w.exampleId = none := by
  split at hw
  · rcases List.mem_singleton.mp hw with rfl
    rfl
  · cases hw

/-! Characterization of the `_parse_ids` walk and its good-id mask. -/

theorem parseWalk_badIds (indexIds : List String) :
    ∀ (ids : List String) (i0 : Nat),
      (parseWalkAux indexIds ids i0).2.2 = ids.filter (isNew indexIds)
  | [], _ => rfl
  | x :: rest, i0 => by
    have ih := parseWalk_badIds indexIds rest (i0 + 1)
    cases hx : lastIdx indexIds x with
    | some j =>
      have hxn : isNew indexIds x = false := by simp [isNew, hx]
      simp [parseWalkAux, hx, hxn, List.filter_cons, ih]
    | none =>
      have hxn : isNew indexIds x = true := by simp [isNew, hx]
      simp [parseWalkAux, hx, hxn, List.filter_cons, ih]

theorem parseWalk_badInds_mem (indexIds : List String) :
    ∀ (ids : List String) (i0 q : Nat),
      q ∈ (parseWalkAux indexIds ids i0).2.1 ↔
        ∃ t, t < ids.length ∧ q = i0 + t ∧ isNew indexIds (idAt ids t) = true
  | [], i0, q => by simp [parseWalkAux]
  | x :: rest, i0, q => by
    have ih := parseWalk_badInds_mem indexIds rest (i0 + 1) q
    cases hx : lastIdx indexIds x with
    | some j =>
      have hxn : isNew indexIds x = false := by simp [isNew, hx]
      have hstep : (parseWalkAux indexIds (x :: rest) i0).2.1
          = (parseWalkAux indexIds rest (i0 + 1)).2.1 := by
        simp [parseWalkAux, hx]
      rw [hstep, ih]
      constructor
      · rintro ⟨t, ht, rfl, hnew⟩
        exact ⟨t + 1, by simpa using ht, by omega, by rwa [idAt_cons_succ]⟩
      · rintro ⟨t, ht, rfl, hnew⟩
        cases t with
        | zero =>
          rw [idAt_cons_zero] at hnew
          rw [hnew] at hxn
          cases hxn
        | succ t =>
          exact ⟨t, by simpa using ht, by omega, by rwa [idAt_cons_succ] at hnew⟩
    | none =>
      have hxn : isNew indexIds x = true := by simp [isNew, hx]
      have hstep : (parseWalkAux indexIds (x :: rest) i0).2.1
          = i0 :: (parseWalkAux indexIds rest (i0 + 1)).2.1 := by
        simp [parseWalkAux, hx]
      rw [hstep]
      constructor
      · intro hm
        rcases List.mem_cons.mp hm with rfl | hm
        · exact ⟨0, by simp, by omega, by rwa [idAt_cons_zero]⟩
        · obtain ⟨t, ht, rfl, hnew⟩ := ih.mp hm
          exact ⟨t + 1, by simpa using ht, by omega, by rwa [idAt_cons_succ]⟩
      · rintro ⟨t, ht, rfl, hnew⟩
        cases t with
        | zero => simp
        | succ t =>
          rw [idAt_cons_succ] at hnew
          exact List.mem_cons_of_mem _
            (ih.mpr ⟨t, by simpa using ht, by omega, hnew⟩)

theorem foldl_set_false_getq :
    ∀ (js : List Nat) (mask : List Bool) (q : Nat),
      (js.foldl (fun acc i => acc.set i false) mask).get? q
        = if q ∈ js ∧ q < mask.length then some false else mask.get? q
  | [], mask, q => by simp
  | j :: rest, mask, q => by
    rw [List.foldl_cons, foldl_set_false_getq rest (mask.set j false) q]
    by_cases h1 : q ∈ rest ∧ q < (mask.set j false).length
    · rw [if_pos h1,
        if_pos ⟨List.mem_cons_of_mem j h1.1, by simpa using h1.2⟩]
    · rw [if_neg h1, getq_set]
      by_cases h2 : j = q ∧ q < mask.length
      · rw [if_pos h2, if_pos ⟨h2.1 ▸ List.mem_cons_self j rest, h2.2⟩]
      · rw [if_neg h2, if_neg ?_]
        intro ⟨hm, hlt⟩
        rcases List.mem_cons.mp hm with rfl | hm
        · exact h2 ⟨rfl, hlt⟩
        · exact h1 ⟨hm, by simpa using hlt⟩

theorem getq_replicate {α : Type} (a : α) :
    ∀ (n q : Nat), q < n → (List.replicate n a).get? q = some a
  | 0, q, h => by omega
  | n + 1, 0, _ => rfl
  | n + 1, q + 1, h => by
    rw [List.replicate_succ]
    exact getq_replicate a n q (by omega)

theorem isNew_eq_not_mem (indexIds : List String) (x : String) :
    isNew indexIds x = decide (x ∉ indexIds) := by
  cases hl : lastIdx indexIds x with
  | none =>
    have := lastIdx_none_iff.mp hl
    simp [isNew, hl, this]
  | some j =>
    have := mem_of_lastIdx_some hl
    simp [isNew, hl, this]

/-- The good-id mask `_parse_ids` builds — all-true scattered to false at the
bad positions — is exactly the per-position membership indicator. -/
theorem mask_eq_map (ids indexIds : List String) :
    ((parseWalkAux indexIds ids 0).2.1).foldl (fun acc i => acc.set i false)
        (List.replicate ids.length true)
      = ids.map (fun x => decide (x ∈ indexIds)) := by
  apply List.ext
  intro q
  rw [foldl_set_false_getq]
  by_cases hq : q < ids.length
  · obtain ⟨x, hx⟩ : ∃ x, ids.get? q = some x := by
      cases hg : ids.get? q with
      | none => exact absurd (List.get?_eq_none.mp hg) (by omega)
      | some y => exact ⟨y, rfl⟩
    have hmap : (ids.map (fun x => decide (x ∈ indexIds))).get? q
        = some (decide (x ∈ indexIds)) := by
      rw [List.get?_map, hx]
      rfl
    by_cases hmem : q ∈ (parseWalkAux indexIds ids 0).2.1
    · obtain ⟨t, htL, hqt, hnew⟩ := (parseWalk_badInds_mem indexIds ids 0 q).mp hmem
      have htq : t = q := by omega
      subst htq
      rw [idAt_eq_of_getq hx, isNew_eq_not_mem] at hnew
      have hxnot : x ∉ indexIds := of_decide_eq_true hnew
      rw [if_pos ⟨hmem, by simpa using hq⟩, hmap]
      simp [hxnot]
    · rw [if_neg (fun hc => hmem hc.1), hmap]
      have hxin : x ∈ indexIds := by
        by_contra hxn
        exact hmem ((parseWalk_badInds_mem indexIds ids 0 q).mpr
          ⟨q, hq, by omega, by
            rw [idAt_eq_of_getq hx, isNew_eq_not_mem]
            simpa using hxn⟩)
      rw [getq_replicate true ids.length q hq]
      simp [hxin]
  · rw [if_neg (fun hc => hq (by simpa using hc.2))]
    rw [List.get?_eq_none.mpr (by simpa using hq),
      List.get?_eq_none.mpr (by simpa using hq)]

theorem maskFilter_map (l : List String) (f : String → Bool) :
    maskFilter l (l.map f) = l.filter f := by
  induction l with
  | nil => rfl
  | cons x rest ih =>
    rw [List.map_cons]
    cases hf : f x with
    | true => simp [maskFilter, List.filter_cons, hf, ← ih, List.zip_cons_cons]
    | false => simp [maskFilter, List.filter_cons, hf, ← ih, List.zip_cons_cons]

/-- `_parse_ids` with missing allowed and at least one query id absent from
the index returns the membership mask and the absent ids. -/
theorem parseIds_with_bad (ids indexIds : List String) (ft : String) (wm : Bool)
    (hbad : ∃ x ∈ ids, x ∉ indexIds) :
    ∃ kio w, parseIds ids indexIds ft true wm
      = .ok ⟨some kio, some (ids.map (fun x => decide (x ∈ indexIds))),
          some (ids.filter (fun x => decide (x ∉ indexIds))), w⟩ := by
  obtain ⟨x, hxmem, hxnot⟩ := hbad
  have hne : ids ≠ indexIds := by
    intro hc
    exact hxnot (hc ▸ hxmem)
  have hbid := parseWalk_badIds indexIds ids 0
  have hbidF : (parseWalkAux indexIds ids 0).2.2
      = ids.filter (fun x => decide (x ∉ indexIds)) := by
    rw [hbid]
    exact List.filter_congr (fun y _ => isNew_eq_not_mem indexIds y)
  have hnmc : 0 < (parseWalkAux indexIds ids 0).2.2.length := by
    rw [hbidF]
    have : x ∈ ids.filter (fun x => decide (x ∉ indexIds)) :=
      List.mem_filter.mpr ⟨hxmem, by simpa using hxnot⟩
    exact List.length_pos.mpr (fun hc => by rw [hc] at this; cases this)
  have hmask := mask_eq_map ids indexIds
  rcases hpw : parseWalkAux indexIds ids 0 with ⟨k, bi, bid⟩
  rw [hpw] at hnmc hbidF hmask
  dsimp only at hnmc hbidF hmask
  have key : parseIds ids indexIds ft true wm
      = .ok ⟨some k, some (ids.map (fun x => decide (x ∈ indexIds))),
          some (ids.filter (fun x => decide (x ∉ indexIds))),
          (if 0 < (indexIds.length : Int) - (k.length : Int) ∧ wm = true then
            [⟨"index_missing_" ++ ft,
              ((indexIds.length : Int) - (k.length : Int)).toNat, none⟩]
           else []) ++
          (if 0 < bid.length ∧ wm = true then
            [⟨"collection_missing_" ++ ft, bid.length, none⟩] else [])⟩ := by
    unfold parseIds
    rw [if_neg hne, hpw]
    dsimp only
    rw [if_neg (fun hc => by cases hc.2), if_neg (fun hc => by cases hc.2),
      if_pos hnmc]
    rw [hmask, hbidF]
  exact ⟨k, _, key⟩

/-! Claim theorems. -/

/-- C1: the similarity query contract says the backend's ranked neighbor
response, restricted to the visible ids, is returned with distances when
requested.  The code instead discards the backend response entirely: with a
valid raw-vector query (`reverse=False`, no aggregation, `k=1`), visible ids
`["r1","r2"]` and a backend that ranks `"r1"` first, `_sort_by_similarity`
returns the hardcoded single-string list (the two Python literals on line 269
concatenate for lack of a comma) and an empty distance list. -/
theorem pinecone_query_returns_hardcoded_ids :
    sortBySimilarity (some (SimQuery.vec [0])) (some 1) false none true
        ["r1", "r2"] none (fun _ => none) (fun _ _ _ => ["r1"])
      = .ok (["63ed9a7ba4c597b4abcc671163ed9a7ba4c597b4abcc6717"], some []) ∧
    ["63ed9a7ba4c597b4abcc671163ed9a7ba4c597b4abcc6717"] ≠ ["r1"] :=
  ⟨rfl, by decide⟩

/-- C2: `add_ids` is supposed to grow the arrays by exactly the number of new
ids and scatter-write every incoming id.  The spec's own example
`add(["b","d"])` against `["a","b","c"]` works (write positions `[1,3]`), but
the resize amount is computed as `jj[-1] - n + 1`, so `add(["d","b"])` — same
ids, the existing one last — computes `m = -1`, performs no resize, and the
scatter write at position 3 raises `IndexError` instead of growing by one. -/
theorem add_ids_single_resize_crash :
    addIds ["b", "d"] [] ["a", "b", "c"] [] false true true false
      = .ok ⟨["a", "b", "c", "d"], [], [0, 1], [1, 3], []⟩ ∧
    addIds ["d", "b"] [] ["a", "b", "c"] [] false true true false
      = .fail .indexError :=
  ⟨by decide, by decide⟩

/-- C9: an upsert of `N ≥ 1` vectors with page size `p ≥ 1` issues exactly
`⌈N/p⌉ = (N + p - 1) / p` sequential backend writes whose batches partition
the vectors in order, each of size `p` except a final batch of size
`N - p * (⌈N/p⌉ - 1)`. -/
theorem upsert_pagination_partition {α : Type} (v : List α) (p : Nat)
    (hp : 1 ≤ p) (hv : 1 ≤ v.length) :
    (addToIndexBatches v p).length = (v.length + p - 1) / p ∧
    (addToIndexBatches v p).join = v ∧
    (∀ i, i + 1 < (v.length + p - 1) / p →
      ((addToIndexBatches v p).getD i []).length = p) ∧
    ((addToIndexBatches v p).getLastD []).length
      = v.length - p * ((v.length + p - 1) / p - 1) :=
  addToIndexBatches_spec v.length v rfl p hp hv

/-- C9 witness: 250 vectors with page size 100 produce exactly 3 writes of
sizes 100, 100, 50. -/
theorem upsert_pagination_partition_witness :
    (addToIndexBatches (List.replicate 250 (0 : Nat)) 100).length = 3 ∧
    (addToIndexBatches (List.replicate 250 (0 : Nat)) 100).join
      = List.replicate 250 (0 : Nat) ∧
    (addToIndexBatches (List.replicate 250 (0 : Nat)) 100).map List.length
      = [100, 100, 50] := by
  have h := upsert_pagination_partition (List.replicate 250 (0 : Nat)) 100
    (by decide) (by decide)
  exact ⟨h.1, h.2.1, by decide⟩

/-- C10: when the index-side id array relevant to the mode is `None`
(`index_sample_ids` in sample mode, `index_label_ids` in patch mode),
`filter_ids` performs no reconciliation: it returns the freshly resolved
collection ids unchanged and `None` for both `keep_inds` and `good_inds`. -/
theorem filter_ids_no_index_noop (c : Collection) (am wm : Bool) :
    (∀ il, filterIds c none il false am wm
        = .ok (⟨if c.isPatches then c.sampleIdVals else c.ids,
            none, none, none⟩, [])) ∧
    (∀ is, filterIds c is none true am wm
        = .ok (⟨(getPatchIds c false none).1, some (getPatchIds c false none).2,
            none, none⟩, [])) := by
  constructor
  · intro il
    rfl
  · intro is
    rfl

/-- C8: `get_ids` with a supplied data array raises the integrity error —
naming both the data count and the resolved-id count — exactly when the two
counts differ, and returns the resolved ids unchanged exactly when they
agree; no other error is possible. -/
theorem get_ids_integrity_iff {E : Type} (c : Collection) (pf am : Bool)
    (ref? : Option (List String)) (d : List E) :
    (getIds c pf (some d) am ref?
        = .fail (.integrity d.length (resolvedIds c pf am ref?).1.length)
      ↔ (resolvedIds c pf am ref?).1.length ≠ d.length) ∧
    (getIds c pf (some d) am ref? = .ok (resolvedIds c pf am ref?)
      ↔ (resolvedIds c pf am ref?).1.length = d.length) ∧
    (∀ e, getIds c pf (some d) am ref? = .fail e
      → e = .integrity d.length (resolvedIds c pf am ref?).1.length) := by
  cases pf with
  | false =>
    unfold getIds resolvedIds
    dsimp only
    by_cases h : (match ref? with
        | some r => r
        | none => c.ids).length ≠ d.length
    · rw [if_pos h]
      refine ⟨?_, ?_, ?_⟩
      · exact ⟨fun _ => h, fun _ => rfl⟩
      · constructor
        · intro hc
          cases hc
        · intro hc
          exact absurd hc h
      · intro e he
        injection he with he2
        exact he2.symm
    · rw [if_neg h]
      push_neg at h
      refine ⟨?_, ?_, ?_⟩
      · constructor
        · intro hc
          cases hc
        · intro hc
          exact absurd h hc
      · exact ⟨fun _ => h, fun _ => rfl⟩
      · intro e he
        cases he
  | true =>
    unfold getIds resolvedIds
    dsimp only
    by_cases h : (getPatchIds c am ref?).1.length ≠ d.length
    · rw [if_pos h]
      refine ⟨?_, ?_, ?_⟩
      · exact ⟨fun _ => h, fun _ => rfl⟩
      · constructor
        · intro hc
          cases hc
        · intro hc
          exact absurd hc h
      · intro e he
        injection he with he2
        exact he2.symm
    · rw [if_neg h]
      push_neg at h
      refine ⟨?_, ?_, ?_⟩
      · constructor
        · intro hc
          cases hc
        · intro hc
          exact absurd h hc
      · exact ⟨fun _ => h, fun _ => rfl⟩
      · intro e he
        cases he

/-- C5 counterexample: under the warn-and-continue missing-id policy the
claim says each side's warning carries the count AND one example id.  But the
reconciliation warning of `_parse_ids` for query `["y","x"]` against index
`["y"]` (one id missing from the index side of the collection) carries only
the count — no example id — and `_find_ids(["x"], ["a"])` with missing
allowed and warnings requested logs no warning at all, because missing ids
are only recorded when `allow_missing` is false. -/
theorem warning_example_id_counterexample :
    parseIds ["y", "x"] ["y"] "samples" true true
      = .ok ⟨some [0], some [true, false], some ["x"],
          [⟨"collection_missing_samples", 1, none⟩]⟩ ∧
    findIds ["x"] ["a"] true true "sample" = .ok ([], []) :=
  ⟨by decide, by decide⟩

/-- C5 amended: under the warn-and-continue policy, every warning
`_parse_ids` logs carries no example id (only the count and the id kind), and
`_find_ids` logs no warning at all — its missing-id list stays empty when
missing ids are allowed.  (No warning ever carries the full offending list:
a `Warning` holds one count and at most one id.) -/
theorem warning_contents_amended (ids indexIds : List String) (ft : String)
    (wm : Bool) :
    (∀ out, parseIds ids indexIds ft true wm = .ok out →
      ∀ w ∈ out.warnings, w.exampleId = none) ∧
    (∀ out, findIds ids indexIds true wm ft = .ok out → out.2 = []) := by
  constructor
  · intro out hout w hw
    by_cases heq : ids = indexIds
    · unfold parseIds at hout
      rw [if_pos heq] at hout
      injection hout with h
      subst h
      cases hw
    · unfold parseIds at hout
      rw [if_neg heq] at hout
      rcases hpw : parseWalkAux indexIds ids 0 with ⟨k, bi, bid⟩
      rw [hpw] at hout
      dsimp only at hout
      rw [if_neg (fun hc => by cases hc.2)] at hout
      rw [if_neg (fun hc => by cases hc.2)] at hout
      by_cases hnmc : 0 < bid.length
      · rw [if_pos hnmc] at hout
        injection hout with h
        subst h
        rcases List.mem_append.mp hw with h1 | h1
        · exact mem_ite_singleton h1
        · exact mem_ite_singleton h1
      · rw [if_neg hnmc] at hout
        injection hout with h
        subst h
        rcases List.mem_append.mp hw with h1 | h1
        · exact mem_ite_singleton h1
        · exact mem_ite_singleton h1
  · intro out hout
    rw [findIds_allow_no_warning] at hout
    injection hout with h
    subst h
    rfl

/-- C5 amended witness: at the counterexample inputs, the one reconciliation
warning logged indeed carries no example id. -/
theorem warning_contents_amended_witness :
    (⟨"collection_missing_samples", 1, none⟩ : Warning).exampleId = none :=
  (warning_contents_amended ["y", "x"] ["y"] "samples" true).1
    ⟨some [0], some [true, false], some ["x"],
      [⟨"collection_missing_samples", 1, none⟩]⟩ (by decide)
    ⟨"collection_missing_samples", 1, none⟩ (by decide)

/-- C7: when reconciliation finds at least one query id absent from the index
(missing allowed), `good_inds` is a boolean mask over the query sequence —
length equal to the query length, false exactly at the absent positions, true
elsewhere (i.e. the per-position membership indicator) — `bad_ids` are the
absent ids, and filtering the query ids by the mask yields the visible ids
`filter_ids` returns. -/
theorem reconcile_good_inds_mask (ids indexIds : List String) (wm : Bool)
    (hbad : ∃ x ∈ ids, x ∉ indexIds) :
    (∀ ft, ∃ kio w, parseIds ids indexIds ft true wm
        = .ok ⟨some kio, some (ids.map (fun x => decide (x ∈ indexIds))),
            some (ids.filter (fun x => decide (x ∉ indexIds))), w⟩) ∧
    (ids.map (fun x => decide (x ∈ indexIds))).length = ids.length ∧
    (∀ t x, ids.get? t = some x →
      (ids.map (fun x => decide (x ∈ indexIds))).get? t
        = some (decide (x ∈ indexIds))) ∧
    maskFilter ids (ids.map (fun x => decide (x ∈ indexIds)))
      = ids.filter (fun x => decide (x ∈ indexIds)) ∧
    (∀ c : Collection, c.isPatches = false → c.ids = ids →
      ∃ fo w, filterIds c (some indexIds) none false true wm = .ok (fo, w) ∧
        fo.sampleIds = ids.filter (fun x => decide (x ∈ indexIds))) := by
  refine ⟨fun ft => parseIds_with_bad ids indexIds ft wm hbad, by simp,
    fun t x hx => by rw [List.get?_map, hx]; rfl,
    maskFilter_map ids (fun x => decide (x ∈ indexIds)), ?_⟩
  intro c hp hcids
  obtain ⟨kio, w, hparse⟩ := parseIds_with_bad ids indexIds "samples" wm hbad
  have hsid : (if c.isPatches = true then c.sampleIdVals else c.ids) = ids := by
    rw [hp, hcids]
    simp
  refine ⟨⟨maskFilter ids (ids.map (fun x => decide (x ∈ indexIds))), none,
      some kio, some (ids.map (fun x => decide (x ∈ indexIds)))⟩, w, ?_, ?_⟩
  · unfold filterIds
    dsimp only
    rw [hsid, hparse]
    dsimp only
    rw [if_pos rfl]
  · exact maskFilter_map ids (fun x => decide (x ∈ indexIds))

/-- C7 witness: reconciling query `["x","y"]` against index `["y","z"]` with
missing allowed masks out `"x"` and keeps the visible id `"y"`. -/
theorem reconcile_good_inds_mask_witness :
    maskFilter ["x", "y"] (["x", "y"].map (fun x => decide (x ∈ ["y", "z"])))
      = ["y"] := by
  have h := reconcile_good_inds_mask ["x", "y"] ["y", "z"] true
    ⟨"x", by decide, by decide⟩
  rw [h.2.2.2.1]
  decide

/-! Lemmas about the `allow_existing=False` write-set filtering. -/

theorem walkAux_false_ge (indexIds : List String) :
    ∀ (ids : List String) (i0 c0 : Nat) (w : Nat × Nat),
      w ∈ walkAux indexIds false ids i0 c0 → c0 ≤ w.2
  | [], _, _, _, h => by cases h
  | x :: rest, i0, c0, w, h => by
    rw [walkAux] at h
    cases hx : lastIdx indexIds x with
    | none =>
      rw [hx] at h
      rcases List.mem_cons.mp h with rfl | h
      · exact le_rfl
      · exact Nat.le_of_succ_le (walkAux_false_ge indexIds rest (i0 + 1) (c0 + 1) w h)
    | some j =>
      rw [hx] at h
      simp only [Bool.false_eq_true, if_false] at h
      exact walkAux_false_ge indexIds rest (i0 + 1) c0 w h

theorem writePos_lt_iff_mem {iS s : List String} {t : Nat} (ht : t < s.length) :
    (writePos iS iS.length s t < iS.length) ↔ idAt s t ∈ iS := by
  cases h : lastIdx iS (idAt s t) with
  | some j =>
    rw [writePos_existing h]
    exact ⟨fun _ => mem_of_lastIdx_some h, fun _ => lastIdx_lt_length h⟩
  | none =>
    rw [writePos_new h]
    constructor
    · intro hc
      omega
    · intro hm
      exact absurd hm (lastIdx_none_iff.mp h)

/-- C4 counterexample: with `allow_existing=False` the claim says add raises
naming an already-present id, or warns and drops.  But (i) for incoming
`["d","a"]` against index `["a"]` with `overwrite=True` the raise names
`ids[ii[0]] = "d"` — a NEW id, not an already-present one; and (ii) with
`overwrite=False` an incoming already-present id is silently skipped: no
error and no warning is raised at all. -/
theorem add_existing_error_counterexample :
    (addIds ["d", "a"] [] ["a"] [] false true false false
        = .fail (.valueError 1 "d") ∧ "d" ∉ ["a"]) ∧
    addIds ["a"] [] ["a"] [] false false false false
      = .ok ⟨["a"], [], [], [], []⟩ :=
  ⟨⟨by decide, by decide⟩, by decide⟩

/-- C4 amended: with `allow_existing=False`, `add_ids` inspects the entries
of the computed write set at already-occupied positions (`jj < n`).  When
some exist it raises a `ValueError` carrying their count and the incoming id
of the FIRST write-set entry — which need not be an already-present id — or,
when warning is allowed, logs that same count and id and drops exactly those
entries before proceeding.  In sample mode with `overwrite=True` such entries
exist iff some incoming id is already present; with `overwrite=False`
(sample mode) already-present ids are skipped during the walk, so the write
set never contains an occupied position and add silently proceeds. -/
theorem add_existing_error_amended
    (sampleIds labelIds indexSampleIds indexLabelIds : List String)
    (pf ow : Bool) :
    (((buildWrites (if pf then indexLabelIds else indexSampleIds) ow
          (if pf then labelIds else sampleIds)).filter
        (fun w => decide (w.2 < indexSampleIds.length))).length > 0 →
      addIds sampleIds labelIds indexSampleIds indexLabelIds pf ow false false
        = .fail (.valueError
            (((buildWrites (if pf then indexLabelIds else indexSampleIds) ow
                (if pf then labelIds else sampleIds)).filter
              (fun w => decide (w.2 < indexSampleIds.length))).length)
            ((if pf then labelIds else sampleIds).getD
              ((buildWrites (if pf then indexLabelIds else indexSampleIds) ow
                (if pf then labelIds else sampleIds)).headD (0, 0)).1 "")) ∧
      addIds sampleIds labelIds indexSampleIds indexLabelIds pf ow false true
        = addIdsFinish sampleIds labelIds indexSampleIds indexLabelIds pf
            ((buildWrites (if pf then indexLabelIds else indexSampleIds) ow
                (if pf then labelIds else sampleIds)).filter
              (fun w => decide (¬ w.2 < indexSampleIds.length)))
            [⟨"already_in_index",
              (((buildWrites (if pf then indexLabelIds else indexSampleIds) ow
                  (if pf then labelIds else sampleIds)).filter
                (fun w => decide (w.2 < indexSampleIds.length))).length),
              some ((if pf then labelIds else sampleIds).getD
                ((buildWrites (if pf then indexLabelIds else indexSampleIds) ow
                  (if pf then labelIds else sampleIds)).headD (0, 0)).1 "")⟩]) ∧
    (pf = false → ow = true →
      (((buildWrites indexSampleIds true sampleIds).filter
          (fun w => decide (w.2 < indexSampleIds.length))).length > 0 ↔
        ∃ x ∈ sampleIds, x ∈ indexSampleIds)) ∧
    (pf = false → ow = false →
      (buildWrites indexSampleIds false sampleIds).filter
        (fun w => decide (w.2 < indexSampleIds.length)) = []) := by
  refine ⟨?_, ?_, ?_⟩
  · intro hpos
    constructor
    · unfold addIds
      rw [if_neg (show ¬((false : Bool) = true) by simp)]
      rw [if_pos hpos]
      rw [if_neg (show ¬((false : Bool) = true) by simp)]
    · unfold addIds
      rw [if_neg (show ¬((false : Bool) = true) by simp)]
      rw [if_pos hpos]
      rw [if_pos (show (true : Bool) = true from rfl)]
  · intro hpf how
    subst hpf how
    rw [buildWrites, walk_enum]
    constructor
    · intro hpos
      have hne : (((List.range sampleIds.length).map
          (fun t => (0 + t, writePos indexSampleIds indexSampleIds.length
            sampleIds t))).filter
          (fun w => decide (w.2 < indexSampleIds.length))) ≠ [] := by
        intro hc
        rw [hc] at hpos
        cases hpos
      obtain ⟨w, hwmem⟩ := List.exists_mem_of_ne_nil _ hne
      obtain ⟨hwin, hwlt⟩ := List.mem_filter.mp hwmem
      obtain ⟨t, htmem, hteq⟩ := List.mem_map.mp hwin
      have htL : t < sampleIds.length := List.mem_range.mp htmem
      have hlt : writePos indexSampleIds indexSampleIds.length sampleIds t
          < indexSampleIds.length := by
        rw [← hteq] at hwlt
        simpa using hwlt
      obtain ⟨x, hx⟩ : ∃ x, sampleIds.get? t = some x := by
        cases hg : sampleIds.get? t with
        | none => exact absurd (List.get?_eq_none.mp hg) (by omega)
        | some y => exact ⟨y, rfl⟩
      refine ⟨x, List.get?_mem hx, ?_⟩
      have := (writePos_lt_iff_mem htL).mp hlt
      rwa [idAt_eq_of_getq hx] at this
    · rintro ⟨x, hxmem, hxin⟩
      obtain ⟨t, ht⟩ := List.get?_of_mem hxmem
      have htL : t < sampleIds.length := (List.get?_eq_some.mp ht).1
      have hlt : writePos indexSampleIds indexSampleIds.length sampleIds t
          < indexSampleIds.length := by
        rw [writePos_lt_iff_mem htL, idAt_eq_of_getq ht]
        exact hxin
      have hmem : (0 + t, writePos indexSampleIds indexSampleIds.length
          sampleIds t) ∈ ((List.range sampleIds.length).map
          (fun t => (0 + t, writePos indexSampleIds indexSampleIds.length
            sampleIds t))).filter
          (fun w => decide (w.2 < indexSampleIds.length)) := by
        apply List.mem_filter.mpr
        exact ⟨List.mem_map.mpr ⟨t, List.mem_range.mpr htL, rfl⟩, by simpa⟩
      exact List.length_pos.mpr (fun hc => by rw [hc] at hmem; cases hmem)
  · intro hpf how
    subst hpf how
    apply List.filter_eq_nil.mpr
    intro w hw
    have := walkAux_false_ge indexSampleIds sampleIds 0
      indexSampleIds.length w hw
    simp
    omega

/-- C4 amended witness: at the counterexample input, the raise carries count
1 and the first write-set id `"d"`. -/
theorem add_existing_error_amended_witness :
    addIds ["d", "a"] [] ["a"] [] false true false false
      = .fail (.valueError 1 "d") := by
  have h := (add_existing_error_amended ["d", "a"] [] ["a"] [] false true).1
    (by decide)
  have h2 := h.1
  rw [h2]
  decide

/-! Compacting-delete lemmas. -/

theorem removeAtInds_sublist {α : Type} (inds : List Nat) :
    ∀ (k : Nat) (arr : List α), List.Sublist (removeAtInds k arr inds) arr
  | _, [] => List.Sublist.refl []
  | k, x :: rest => by
    rw [removeAtInds]
    split
    · exact List.Sublist.cons x (removeAtInds_sublist inds (k + 1) rest)
    · exact List.Sublist.cons₂ x (removeAtInds_sublist inds (k + 1) rest)

theorem removeAtInds_length_pair {α β : Type} (inds : List Nat) :
    ∀ (k : Nat) (a : List α) (b : List β), a.length = b.length →
      (removeAtInds k a inds).length = (removeAtInds k b inds).length
  | _, [], [], _ => rfl
  | k, x :: xs, [], h => by simp at h
  | k, [], y :: ys, h => by simp at h
  | k, x :: xs, y :: ys, h => by
    have h' : xs.length = ys.length := by simpa using h
    rw [removeAtInds, removeAtInds]
    split
    · exact removeAtInds_length_pair inds (k + 1) xs ys h'
    · simpa using removeAtInds_length_pair inds (k + 1) xs ys h'

theorem npDelete_sublist {α : Type} {arr res : List α} {inds : List Nat}
    (h : npDelete arr inds = some res) : List.Sublist res arr := by
  unfold npDelete at h
  split at h
  · injection h with h
    subst h
    exact removeAtInds_sublist inds 0 arr
  · cases h

theorem npDelete_nodup {arr res : List String} {inds : List Nat}
    (hd : arr.Nodup) (h : npDelete arr inds = some res) : res.Nodup :=
  (npDelete_sublist h).nodup hd

theorem npDelete_length_pair {α β : Type} {a : List α} {b : List β}
    {ra : List α} {rb : List β} {inds : List Nat} (hlen : a.length = b.length)
    (ha : npDelete a inds = some ra) (hb : npDelete b inds = some rb) :
    ra.length = rb.length := by
  unfold npDelete at ha hb
  split at ha
  · injection ha with ha
    split at hb
    · injection hb with hb
      subst ha hb
      exact removeAtInds_length_pair inds 0 a b hlen
    · cases hb
  · cases ha

/-- C3 counterexample: three invariant violations.  (i) `add(["d","d"])`
against the unique index `["a"]` assigns each duplicate occurrence its own
fresh position, producing `["a","d","d"]` — per-array uniqueness broken;
(ii) the facade's `remove_from_index` in patch mode filters ONLY the label
array, leaving the sample array untouched — equal lengths broken; (iii) a
patch-mode add of two labels of one sample produces a duplicated sample-id
array even from a Nodup start — sample-array uniqueness is not preserved in
patch mode even for distinct label batches. -/
theorem sync_invariant_counterexample :
    (addIds ["d", "d"] [] ["a"] [] false true true false
        = .ok ⟨["a", "d", "d"], [], [0, 1], [1, 2], []⟩ ∧
      (["a"] : List String).Nodup ∧ ¬ (["a", "d", "d"] : List String).Nodup) ∧
    (removeFromIndex ⟨some ["s1"], some ["l1"]⟩ [] ["l1"]
        = (⟨some ["s1"], some []⟩, ["l1"]) ∧
      (["s1"] : List String).length ≠ ([] : List String).length) ∧
    (addIds ["s", "s"] ["l1", "l2"] [] [] true true true false
        = .ok ⟨["s", "s"], ["l1", "l2"], [0, 1], [0, 1], []⟩ ∧
      ¬ (["s", "s"] : List String).Nodup) :=
  ⟨⟨by decide, by decide, by decide⟩, ⟨by decide, by decide⟩,
    ⟨by decide, by decide⟩⟩

/-- C3 amended: the synchronization operations preserve what the code
actually maintains.  For batches of pairwise-distinct driving ids, a
successful `add` keeps the sample array unique in sample mode, and in patch
mode keeps the two arrays of equal length and the label array unique (the
patch-mode sample array may legitimately repeat sample ids).  `remove`
preserves uniqueness of every array it compacts — for every batch, repeated
ids included — and equal lengths in patch mode.  The facade's
`remove_from_index` preserves uniqueness of the one array it filters and
never touches the other. -/
theorem sync_invariant_amended :
    (∀ (s l iS iL : List String) (we : Bool) (r : AddOut),
      iS.Nodup → s.Nodup →
      addIds s l iS iL false true true we = .ok r →
      r.indexSampleIds.Nodup) ∧
    (∀ (samples labels iS iL : List String) (we : Bool) (r : AddOut),
      iS.length = iL.length → labels.Nodup → iL.Nodup →
      addIds samples labels iS iL true true true we = .ok r →
      r.indexSampleIds.length = r.indexLabelIds.length ∧
        r.indexLabelIds.Nodup) ∧
    (∀ (sids? lids? : Option (List String)) (iS iL : List String)
      (pf am wm : Bool) (s' l' : List String) (inds : List Nat)
      (w : List Warning),
      removeIds sids? lids? iS iL pf am wm = .ok (s', l', inds, w) →
      (iS.Nodup → s'.Nodup) ∧
      (iL.Nodup → l'.Nodup) ∧
      (pf = true → iS.length = iL.length → s'.length = l'.length)) ∧
    (∀ (st : PineconeState) (sids lids : List String),
      (∀ ls, st.labelIds? = some ls → ls.Nodup →
        ∃ ls', (removeFromIndex st sids lids).1.labelIds? = some ls' ∧
          ls'.Nodup ∧ (removeFromIndex st sids lids).1.sampleIds?
            = st.sampleIds?) ∧
      (∀ ss, st.labelIds? = none → st.sampleIds? = some ss → ss.Nodup →
        ∃ ss', (removeFromIndex st sids lids).1.sampleIds? = some ss' ∧
          ss'.Nodup)) := by
  refine ⟨?_, ?_, ?_, ?_⟩
  · intro s l iS iL we r hiS hs h
    have hfit := addIds_sample_ok_inv h
    rw [addIds_sample_ok s l iS iL we hfit] at h
    injection h with h
    rw [← h]
    refine List.Nodup.append hiS (hs.filter _) ?_
    intro a haS haF
    obtain ⟨_, hnew⟩ := List.mem_filter.mp haF
    rw [isNew] at hnew
    cases hl : lastIdx iS a with
    | some j => rw [hl] at hnew; cases hnew
    | none => exact (lastIdx_none_iff.mp hl) haS
  · intro samples labels iS iL we r hn hlab hiL h
    obtain ⟨hfit, hsl⟩ := addIds_patch_ok_inv hn h
    rw [addIds_patch_ok samples labels iS iL we hn hsl hfit] at h
    injection h with h
    rw [← h]
    constructor
    · rw [scatter_length]
      simp [newCount, hn]
    · refine List.Nodup.append hiL (hlab.filter _) ?_
      intro a haL haF
      obtain ⟨_, hnew⟩ := List.mem_filter.mp haF
      rw [isNew] at hnew
      cases hl : lastIdx iL a with
      | some j => rw [hl] at hnew; cases hnew
      | none => exact (lastIdx_none_iff.mp hl) haL
  · intro sids? lids? iS iL pf am wm s' l' inds w h
    unfold removeIds at h
    split at h
    · cases h
    · split at h
      · cases h
      · split at h
        · dsimp only at h
          split at h
          · injection h with h
            simp only [Prod.mk.injEq] at h
            obtain ⟨rfl, rfl, -, -⟩ := h
            exact ⟨id, id, fun _ hlen => hlen⟩
          · split at h
            · cases h
            · next s0 heqS =>
              split at h
              · cases h
              · next l0 heqL =>
                injection h with h
                simp only [Prod.mk.injEq] at h
                obtain ⟨rfl, rfl, -, -⟩ := h
                exact ⟨fun hd => npDelete_nodup hd heqS,
                  fun hd => npDelete_nodup hd heqL,
                  fun _ hlen => npDelete_length_pair hlen heqS heqL⟩
        · next hpf =>
          dsimp only at h
          split at h
          · injection h with h
            simp only [Prod.mk.injEq] at h
            obtain ⟨rfl, rfl, -, -⟩ := h
            exact ⟨id, id, fun hpt _ => absurd hpt hpf⟩
          · split at h
            · cases h
            · next s0 heqS =>
              injection h with h
              simp only [Prod.mk.injEq] at h
              obtain ⟨rfl, rfl, -, -⟩ := h
              exact ⟨fun hd => npDelete_nodup hd heqS, id,
                fun hpt _ => absurd hpt hpf⟩
  · intro st sids lids
    constructor
    · intro ls hls hnd
      rw [removeFromIndex, hls]
      exact ⟨ls.filter (fun x => decide (x ∉ lids)), rfl, hnd.filter _, rfl⟩
    · intro ss hnone hss hnd
      rw [removeFromIndex, hnone, hss]
      exact ⟨ss.filter (fun x => decide (x ∉ sids)), rfl, hnd.filter _⟩

/-- C3 amended witness: a successful distinct-batch sample-mode add from the
unique index `["a","b","c"]` stays unique. -/
theorem sync_invariant_amended_witness :
    (["a", "b", "c", "d"] : List String).Nodup :=
  sync_invariant_amended.1 ["b", "d"] [] ["a", "b", "c"] [] false
    ⟨["a", "b", "c", "d"], [], [0, 1], [1, 3], []⟩
    (by decide) (by decide) (by decide)

/-! Lemmas for idempotence of `add_ids` with `overwrite=True`. -/

theorem getq_isSome {l : List String} {t : Nat} (h : t < l.length) :
    ∃ x, l.get? t = some x := by
  cases hg : l.get? t with
  | none => exact absurd (List.get?_eq_none.mp hg) (by omega)
  | some y => exact ⟨y, rfl⟩

theorem getq_le_lastIdx {l : List String} {t k : Nat} {x : String}
    (hg : l.get? t = some x) (hk : lastIdx l x = some k) : t ≤ k := by
  by_contra hlt
  push_neg at hlt
  exact lastIdx_isLast hk t hlt hg

theorem lastIdx_cons (a : String) (rest : List String) (x : String) :
    lastIdx (a :: rest) x =
      match lastIdx rest x with
      | some j => some (j + 1)
      | none => if a = x then some 0 else none := rfl

theorem lastIdx_filter {p : String → Bool} {x : String} (hp : p x = true) :
    ∀ {l : List String} {k : Nat}, lastIdx l x = some k →
      lastIdx (l.filter p) x = some ((l.take k).filter p).length := by
  intro l
  induction l with
  | nil => intro k h; cases h
  | cons a rest ih =>
    intro k h
    rw [lastIdx] at h
    cases hr : lastIdx rest x with
    | some j =>
      rw [hr] at h
      injection h with h
      subst h
      rw [List.take_succ_cons, List.filter_cons, List.filter_cons]
      by_cases pa : p a = true
      · rw [if_pos pa, if_pos pa, lastIdx_cons, ih hr]
        rfl
      · rw [if_neg pa, if_neg pa, ih hr]
    | none =>
      rw [hr] at h
      by_cases ha : a = x
      · rw [if_pos ha] at h
        injection h with h
        subst h
        have hpa : p a = true := ha ▸ hp
        rw [List.filter_cons, if_pos hpa, lastIdx_cons]
        have hno : lastIdx (rest.filter p) x = none := by
          rw [lastIdx_none_iff]
          intro hc
          exact (lastIdx_none_iff.mp hr) (List.mem_filter.mp hc).1
        rw [hno, if_pos ha]
        rfl
      · rw [if_neg ha] at h
        cases h

/-- After a fitting add, the LAST slot holding `x` in the updated driving
array is exactly the write position of the last incoming occurrence of `x`. -/
theorem lastIdx_append_filter {iL labels : List String} {x : String} {k : Nat}
    (hk : lastIdx labels x = some k) :
    lastIdx (iL ++ labels.filter (isNew iL)) x
      = some (writePos iL iL.length labels k) := by
  have hx : idAt labels k = x := idAt_eq_of_getq (lastIdx_getq hk)
  rw [lastIdx_append]
  cases hm : lastIdx iL x with
  | some j =>
    have hnone : lastIdx (labels.filter (isNew iL)) x = none := by
      rw [lastIdx_none_iff]
      intro hc
      have := (List.mem_filter.mp hc).2
      rw [isNew, hm] at this
      cases this
    rw [hnone, writePos_existing (by rw [hx]; exact hm)]
  | none =>
    have hxn : isNew iL x = true := by simp [isNew, hm]
    rw [lastIdx_filter hxn hk, writePos_new (by rw [hx]; exact hm)]
    rfl

theorem mem_append_filter_of_mem {iL labels : List String} {x : String}
    (h : x ∈ labels) : x ∈ iL ++ labels.filter (isNew iL) := by
  cases hm : lastIdx iL x with
  | some j => exact List.mem_append_left _ (mem_of_lastIdx_some hm)
  | none =>
    exact List.mem_append_right _
      (List.mem_filter.mpr ⟨h, by simp [isNew, hm]⟩)

theorem newCount_eq_zero_of_mem {D labels : List String}
    (h : ∀ x ∈ labels, x ∈ D) : newCount D labels = 0 := by
  rw [newCount, List.length_eq_zero, List.filter_eq_nil]
  intro x hx
  obtain ⟨j, hj⟩ := lastIdx_of_mem (h x hx)
  simp [isNew, hj]

theorem map_range_zip_take (g : Nat → Nat) (samples : List String) :
    ∀ (L : Nat), L ≤ samples.length →
      ((List.range L).map g).zip (samples.take L)
        = (List.range L).map (fun t => (g t, (samples.get? t).getD "")) := by
  intro L
  induction L with
  | zero => intro _; simp
  | succ L ih =>
    intro hL
    obtain ⟨v, hv⟩ := getq_isSome (l := samples) (t := L) (by omega)
    have hv2 : samples[L]? = some v := by
      rw [← List.get?_eq_getElem?]
      exact hv
    rw [List.range_succ, List.map_append, List.map_append]
    have htake : samples.take (L + 1) = samples.take L ++ [v] := by
      rw [List.take_succ, hv2]
      rfl
    rw [htake, List.zip_append (by simp [List.length_take]; omega),
      ih (by omega)]
    simp [hv2]

theorem buildWrites_zip (iX labels samples : List String)
    (hlen : labels.length ≤ samples.length) :
    ((buildWrites iX true labels).map Prod.snd).zip
        (samples.take labels.length)
      = (List.range labels.length).map
          (fun t => (writePos iX iX.length labels t,
            (samples.get? t).getD "")) := by
  rw [buildWrites_snd, map_range_zip_take _ samples labels.length hlen]

/-- Re-running the patch-mode scatter against the updated label array writes
every slot the value it already holds: the second scatter is the identity. -/
theorem patch_second_scatter_id (samples labels iS iL : List String)
    (hn : iS.length = iL.length) (hsl : labels.length ≤ samples.length) :
    scatter
      (scatter (iS ++ List.replicate (newCount iL labels) "")
        (((buildWrites iL true labels).map Prod.snd).zip
          (samples.take labels.length)))
      (((buildWrites (iL ++ labels.filter (isNew iL)) true labels).map
          Prod.snd).zip (samples.take labels.length))
      = scatter (iS ++ List.replicate (newCount iL labels) "")
          (((buildWrites iL true labels).map Prod.snd).zip
            (samples.take labels.length)) := by
  rw [buildWrites_zip iL labels samples hsl,
    buildWrites_zip (iL ++ labels.filter (isNew iL)) labels samples hsl]
  have hAlen : (iS ++ List.replicate (newCount iL labels) "").length
      = iL.length + newCount iL labels := by
    simp [hn]
  have hS'len : (scatter (iS ++ List.replicate (newCount iL labels) "")
      ((List.range labels.length).map
        (fun t => (writePos iL iL.length labels t,
          (samples.get? t).getD "")))).length
      = iL.length + newCount iL labels := by
    rw [scatter_length, hAlen]
  apply List.ext
  intro q
  by_cases hq : q < iL.length + newCount iL labels
  · rw [scatter_getq _ _ q (by rw [hS'len]; exact hq)]
    cases hlw : lastWrite ((List.range labels.length).map
        (fun t => (writePos (iL ++ labels.filter (isNew iL))
          (iL ++ labels.filter (isNew iL)).length labels t,
          (samples.get? t).getD ""))) q with
    | none => rfl
    | some v =>
      obtain ⟨t, htL, hq2, hv, hmax⟩ := lastWrite_range_inv _ _ q v hlw
      obtain ⟨x, hx⟩ := getq_isSome (l := labels) htL
      have hxmem : x ∈ labels := List.get?_mem hx
      obtain ⟨k, hk⟩ := lastIdx_of_mem hxmem
      have htk : t ≤ k := getq_le_lastIdx hx hk
      have hfactA := @lastIdx_append_filter iL _ _ _ hk
      have hpos2t : writePos (iL ++ labels.filter (isNew iL))
          (iL ++ labels.filter (isNew iL)).length labels t
          = writePos iL iL.length labels k := by
        rw [writePos_existing (by rw [idAt_eq_of_getq hx]; exact hfactA)]
      have hkL : k < labels.length := lastIdx_lt_length hk
      have htkeq : t = k := by
        by_contra hne
        have hklt : t < k := by omega
        refine hmax k hklt hkL ?_
        have hxk : labels.get? k = some x := lastIdx_getq hk
        show writePos (iL ++ labels.filter (isNew iL))
            (iL ++ labels.filter (isNew iL)).length labels k = q
        rw [writePos_existing (by rw [idAt_eq_of_getq hxk]; exact hfactA)]
        rw [← hpos2t]
        exact hq2
      subst htkeq
      have hq3 : q = writePos iL iL.length labels t := by
        rw [← hq2]
        exact hpos2t
      have hbound : writePos iL iL.length labels t
          < iL.length + newCount iL labels := writePos_lt le_rfl htL
      have hlw1 : lastWrite ((List.range labels.length).map
          (fun t => (writePos iL iL.length labels t,
            (samples.get? t).getD ""))) q
          = some ((samples.get? t).getD "") := by
        refine lastWrite_range _ labels.length q t htL ?_ ?_
        · exact hq3.symm
        · intro t' ht' ht'L
          show writePos iL iL.length labels t' ≠ q
          rw [hq3]
          exact writePos_last_unique le_rfl hk ht' ht'L
      rw [scatter_getq _ _ q (by rw [hAlen]; exact hq), hlw1, ← hv]
  · have h1 : (scatter
        (scatter (iS ++ List.replicate (newCount iL labels) "")
          ((List.range labels.length).map
            (fun t => (writePos iL iL.length labels t,
              (samples.get? t).getD ""))))
        ((List.range labels.length).map
          (fun t => (writePos (iL ++ labels.filter (isNew iL))
            (iL ++ labels.filter (isNew iL)).length labels t,
            (samples.get? t).getD "")))).length
        = iL.length + newCount iL labels := by
      rw [scatter_length, hS'len]
    rw [List.get?_eq_none.mpr (by rw [h1]; omega),
      List.get?_eq_none.mpr (by rw [hS'len]; omega)]

/-- C6: `add_ids` with `overwrite=True` (and existing ids allowed) is
idempotent on the index id arrays.  In sample mode, and in patch mode with
aligned index arrays, running `add_ids` a second time with the same incoming
batch against the arrays a successful first run produced succeeds and returns
the same sample-id and label-id arrays. -/
theorem add_overwrite_idempotent
    (s l samples labels iS iL pS pL : List String) (we : Bool)
    (r₁ p₁ : AddOut) :
    (addIds s l iS iL false true true we = .ok r₁ →
      ∃ r₂ : AddOut,
        addIds s l r₁.indexSampleIds r₁.indexLabelIds false true true we
          = .ok r₂
        ∧ r₂.indexSampleIds = r₁.indexSampleIds
        ∧ r₂.indexLabelIds = r₁.indexLabelIds)
    ∧ (pS.length = pL.length →
      addIds samples labels pS pL true true true we = .ok p₁ →
      ∃ p₂ : AddOut,
        addIds samples labels p₁.indexSampleIds p₁.indexLabelIds
            true true true we
          = .ok p₂
        ∧ p₂.indexSampleIds = p₁.indexSampleIds
        ∧ p₂.indexLabelIds = p₁.indexLabelIds) := by
  constructor
  · intro h₁
    have hfit := addIds_sample_ok_inv h₁
    rw [addIds_sample_ok s l iS iL we hfit] at h₁
    injection h₁ with h₁
    subst h₁
    have hK : newCount (iS ++ s.filter (isNew iS)) s = 0 :=
      newCount_eq_zero_of_mem (fun x hx => mem_append_filter_of_mem hx)
    have hfil : s.filter (isNew (iS ++ s.filter (isNew iS))) = [] := by
      have h := hK
      unfold newCount at h
      exact List.length_eq_zero.mp h
    have hfit₂ : addFits (iS ++ s.filter (isNew iS)) s := Or.inr (Or.inl hK)
    refine ⟨_, addIds_sample_ok s l (iS ++ s.filter (isNew iS)) iL we hfit₂,
      ?_, rfl⟩
    show (iS ++ s.filter (isNew iS))
        ++ s.filter (isNew (iS ++ s.filter (isNew iS)))
      = iS ++ s.filter (isNew iS)
    rw [hfil, List.append_nil]
  · intro hn h₁
    obtain ⟨hfit, hsl⟩ := addIds_patch_ok_inv hn h₁
    rw [addIds_patch_ok samples labels pS pL we hn hsl hfit] at h₁
    injection h₁ with h₁
    subst h₁
    have hn₂ : (scatter (pS ++ List.replicate (newCount pL labels) "")
          (((buildWrites pL true labels).map Prod.snd).zip
            (samples.take labels.length))).length
        = (pL ++ labels.filter (isNew pL)).length := by
      rw [scatter_length]
      simp [newCount, hn]
    have hK₂ : newCount (pL ++ labels.filter (isNew pL)) labels = 0 :=
      newCount_eq_zero_of_mem (fun x hx => mem_append_filter_of_mem hx)
    have hfil₂ : labels.filter (isNew (pL ++ labels.filter (isNew pL)))
        = [] := by
      have h := hK₂
      unfold newCount at h
      exact List.length_eq_zero.mp h
    have hfit₂ : addFits (pL ++ labels.filter (isNew pL)) labels :=
      Or.inr (Or.inl hK₂)
    have hc₂ := addIds_patch_ok samples labels
      (scatter (pS ++ List.replicate (newCount pL labels) "")
        (((buildWrites pL true labels).map Prod.snd).zip
          (samples.take labels.length)))
      (pL ++ labels.filter (isNew pL)) we hn₂ hsl hfit₂
    simp only [hK₂, List.replicate_zero, List.append_nil, hfil₂] at hc₂
    refine ⟨_, hc₂, ?_, rfl⟩
    show scatter
        (scatter (pS ++ List.replicate (newCount pL labels) "")
          (((buildWrites pL true labels).map Prod.snd).zip
            (samples.take labels.length)))
        (((buildWrites (pL ++ labels.filter (isNew pL)) true labels).map
            Prod.snd).zip (samples.take labels.length))
      = scatter (pS ++ List.replicate (newCount pL labels) "")
          (((buildWrites pL true labels).map Prod.snd).zip
            (samples.take labels.length))
    exact patch_second_scatter_id samples labels pS pL hn hsl

theorem add_overwrite_idempotent_witness :
    addIds ["b", "d"] [] ["a", "b", "c"] [] false true true false
        = .ok ⟨["a", "b", "c", "d"], [], [0, 1], [1, 3], []⟩
    ∧ ∃ r₂ : AddOut,
        addIds ["b", "d"] [] ["a", "b", "c", "d"] [] false true true false
          = .ok r₂
        ∧ r₂.indexSampleIds = ["a", "b", "c", "d"]
        ∧ r₂.indexLabelIds = [] :=
  ⟨by decide,
    (add_overwrite_idempotent ["b", "d"] [] ["s1"] ["m1"] ["a", "b", "c"] []
      ["x"] ["p"] false
      ⟨["a", "b", "c", "d"], [], [0, 1], [1, 3], []⟩
      ⟨[], [], [], [], []⟩).1 (by decide)⟩

end FiftyoneBrain
